import Mathlib

/-!
Package `rig`, exec options (`execoptions.go`).

A shallow embedding of the output-shaping and redaction pipeline of package `rig`:
the `ExecOptions` record, its functional options, the redaction chain, command-text
logging and the stdin/stdout/stderr endpoints.

Conventions of the embedding

* a Go `string` / `[]byte` is a list of bytes (`GoString`);
* a Go function that may abort with a run-time error returns `Option`, `none` being the abort;
* calls to the injected logger are collected, in order, as a list of `LogRecord`s;
* writes made to caller-supplied `io.Writer`s are collected, in order, in the process state.
-/

namespace Rig

/-! ## Strings -/

/-- A Go byte. -/
abbrev Byte := UInt8

/-- A Go string: a sequence of bytes. -/
abbrev GoString := List Byte

/-- The bytes of a string literal of the source (Go source text is UTF-8). -/
def lit (s : String) : GoString := s.toUTF8.data.toList

namespace utf8

/-- Go `utf8.DecodeRuneInString`, width component: the number of bytes of the first
UTF-8 sequence of `s` (1 for an invalid or truncated sequence, 0 for the empty string). -/
def runeWidth (s : GoString) : Nat :=
  let cont (lo hi : Nat) (b : Byte) : Bool := decide (lo ≤ b.toNat) && decide (b.toNat ≤ hi)
  match s with
  | [] => 0
  | s0 :: rest =>
    let x := s0.toNat
    -- (size, lowest and highest accepted second byte); size 1: ASCII or invalid
    let (sz, lo, hi) : Nat × Nat × Nat :=
      if x < 0xC2 then (1, 0, 0)
      else if x ≤ 0xDF then (2, 0x80, 0xBF)
      else if x = 0xE0 then (3, 0xA0, 0xBF)
      else if x = 0xED then (3, 0x80, 0x9F)
      else if x ≤ 0xEF then (3, 0x80, 0xBF)
      else if x = 0xF0 then (4, 0x90, 0xBF)
      else if x ≤ 0xF3 then (4, 0x80, 0xBF)
      else if x = 0xF4 then (4, 0x80, 0x8F)
      else (1, 0, 0)
    if sz = 1 then 1
    else if rest.length + 1 < sz then 1
    else
      match rest with
      | [] => 1
      | s1 :: rest1 =>
        if !cont lo hi s1 then 1
        else if sz ≤ 2 then 2
        else
          match rest1 with
          | [] => 1
          | s2 :: rest2 =>
            if !cont 0x80 0xBF s2 then 1
            else if sz ≤ 3 then 3
            else
              match rest2 with
              | [] => 1
              | s3 :: _ => if !cont 0x80 0xBF s3 then 1 else 4

/-- Go `utf8.AppendRune`: the UTF-8 encoding of the code point `r` (of the replacement
character U+FFFD when `r` is a surrogate or out of range). -/
def EncodeRune (r : Nat) : GoString :=
  if r < 0x80 then [UInt8.ofNat r]
  else if r < 0x800 then [UInt8.ofNat (0xC0 + r / 64), UInt8.ofNat (0x80 + r % 64)]
  else if 0x10FFFF < r ∨ (0xD800 ≤ r ∧ r ≤ 0xDFFF) then [0xEF, 0xBF, 0xBD]
  else if r < 0x10000 then
    [UInt8.ofNat (0xE0 + r / 4096), UInt8.ofNat (0x80 + r / 64 % 64), UInt8.ofNat (0x80 + r % 64)]
  else
    [UInt8.ofNat (0xF0 + r / 262144), UInt8.ofNat (0x80 + r / 4096 % 64),
      UInt8.ofNat (0x80 + r / 64 % 64), UInt8.ofNat (0x80 + r % 64)]

end utf8

namespace unicode

/-- The code points for which Go `unicode.IsSpace` holds (Unicode property White_Space). -/
def spaceRunes : List Nat :=
  [0x09, 0x0A, 0x0B, 0x0C, 0x0D, 0x20, 0x85, 0xA0, 0x1680,
   0x2000, 0x2001, 0x2002, 0x2003, 0x2004, 0x2005, 0x2006, 0x2007, 0x2008, 0x2009, 0x200A,
   0x2028, 0x2029, 0x202F, 0x205F, 0x3000]

/-- The UTF-8 encodings of the white-space code points. -/
def spaceEncodings : List GoString := spaceRunes.map utf8.EncodeRune

/-- Text made of white space only: a concatenation of encodings of white-space code
points. -/
def AllSpace (x : GoString) : Prop :=
  ∃ es : List GoString, (∀ e ∈ es, e ∈ spaceEncodings) ∧ x = es.flatten

end unicode

namespace strings

/-- Go `strings.HasPrefix`. -/
def HasPrefix (s pre : GoString) : Bool := pre.isPrefixOf s

/-- Go `strings.Contains`: `substr` occurs somewhere in `s`. -/
def Contains : GoString → GoString → Bool
  | [], substr => HasPrefix [] substr
  | c :: s, substr => HasPrefix (c :: s) substr || Contains s substr

/-- Replacement of a non-empty `old`: scan left to right, at each position where `old`
starts emit `new` and continue after the occurrence, otherwise copy one byte.  The first
argument bounds the number of steps; `s.length` steps always suffice. -/
def replaceScan (old new : GoString) : Nat → GoString → GoString
  | 0, s => s
  | _ + 1, [] => []
  | n + 1, c :: s =>
    if HasPrefix (c :: s) old then new ++ replaceScan old new n ((c :: s).drop old.length)
    else c :: replaceScan old new n s

/-- Replacement of the empty `old` after the first match: `new` is inserted after every
UTF-8 sequence. -/
def insertAfterRunes (new : GoString) : Nat → GoString → GoString
  | 0, s => s
  | _ + 1, [] => []
  | n + 1, c :: s =>
    let w := utf8.runeWidth (c :: s)
    (c :: s).take w ++ new ++ insertAfterRunes new n ((c :: s).drop w)

/-- Go `strings.ReplaceAll`: a copy of `s` with all non-overlapping instances of `old`,
found left to right, replaced by `new`.  An empty `old` matches at the beginning of the
string and after each UTF-8 sequence. -/
def ReplaceAll (s old new : GoString) : GoString :=
  match old with
  | [] => new ++ insertAfterRunes new s.length s
  | _ :: _ => replaceScan old new s.length s

/-- Go `strings.Split(s, sep)` for a one-byte separator: the pieces of `s` between the
occurrences of `sep`; always at least one piece. -/
def Split (s : GoString) (sep : Byte) : List GoString :=
  match s with
  | [] => [[]]
  | c :: rest =>
    if c = sep then [] :: Split rest sep
    else
      match Split rest sep with
      | [] => [[c]]
      | p :: ps => (c :: p) :: ps

/-- While the text begins with one of the byte sequences `encs`, that sequence is
dropped.  The first argument bounds the number of steps; `s.length` steps always suffice
when no sequence is empty. -/
def stripLeading (encs : List GoString) : Nat → GoString → GoString
  | 0, s => s
  | n + 1, s =>
    match encs.find? (fun e => e.isPrefixOf s) with
    | some e => stripLeading encs n (s.drop e.length)
    | none => s

/-- Go `strings.TrimLeftFunc(s, unicode.IsSpace)`: `s` without its leading white-space
code points. -/
def TrimLeftSpace (s : GoString) : GoString :=
  stripLeading unicode.spaceEncodings s.length s

/-- Go `strings.TrimRightFunc(s, unicode.IsSpace)`: `s` without its trailing white-space
code points (the same scan on the reversed text). -/
def TrimRightSpace (s : GoString) : GoString :=
  (stripLeading (unicode.spaceEncodings.map List.reverse) s.length s.reverse).reverse

/-- Go `strings.TrimSpace`: `s` with all leading and trailing white space removed, as
defined by Unicode.  Bytes that are not part of the encoding of a white-space code point
are never removed. -/
def TrimSpace (s : GoString) : GoString := TrimRightSpace (TrimLeftSpace s)

/-- Go `strings.Join`. -/
def Join (elems : List GoString) (sep : GoString) : GoString :=
  match elems with
  | [] => []
  | [e] => e
  | e :: es => e ++ sep ++ Join es sep

end strings

namespace base64

/-- Value of a character of the standard alphabet `A-Z a-z 0-9 + /`. -/
def sextet (b : Byte) : Option Nat :=
  let n := b.toNat
  if 65 ≤ n ∧ n ≤ 90 then some (n - 65)
  else if 97 ≤ n ∧ n ≤ 122 then some (n - 71)
  else if 48 ≤ n ∧ n ≤ 57 then some (n + 4)
  else if n = 43 then some 62
  else if n = 47 then some 63
  else none

/-- The three bytes of a 24-bit group made of four 6-bit values. -/
def group (a b c d : Nat) : Byte × Byte × Byte :=
  let val := a * 262144 + b * 4096 + c * 64 + d
  (UInt8.ofNat (val / 65536 % 256), UInt8.ofNat (val / 256 % 256), UInt8.ofNat (val % 256))

/-- Decoding of input from which line breaks have been removed: full quanta of four
alphabet characters, the last one possibly padded with `=` (character 61). -/
def decodeQuanta : GoString → Option GoString
  | [] => some []
  | [a, b, 61, 61] =>
    match sextet a, sextet b with
    | some x, some y => some [(group x y 0 0).1]
    | _, _ => none
  | [a, b, c, 61] =>
    match sextet a, sextet b, sextet c with
    | some x, some y, some z => some [(group x y z 0).1, (group x y z 0).2.1]
    | _, _, _ => none
  | a :: b :: c :: d :: rest =>
    match sextet a, sextet b, sextet c, sextet d, decodeQuanta rest with
    | some x, some y, some z, some w, some out =>
      some ((group x y z w).1 :: (group x y z w).2.1 :: (group x y z w).2.2 :: out)
    | _, _, _, _, _ => none
  | _ => none

/-- Go `base64.StdEncoding.DecodeString`: `none` when it returns an error.  The decoder
skips carriage returns and line feeds wherever they stand. -/
def DecodeString (s : GoString) : Option GoString :=
  decodeQuanta (s.filter (fun b => b != 10 && b != 13))

end base64

/-! ## Package-level declarations and collaborators -/

/-- The string `execoptions.go` declares as the mask. -/
def DefaultRedactMask : GoString := lit "[REDACTED]"

/-- Package-level declarations that `execoptions.go` reads and does not declare: the
kill switch `DisableRedact` and the mask `RedactMask`.  They are parameters of the
embedding and do not change during a run. -/
structure Globals where
  DisableRedact : Bool
  RedactMask : GoString

/-- Severity of a logger call (`Debugf`, `Infof`, `Errorf`). -/
inductive Severity
  | debug
  | info
  | error
  deriving DecidableEq, Repr

/-- One call to the injected logger: its severity and the text it is given, the
placeholders of the format strings of this file filled in. -/
structure LogRecord where
  level : Severity
  msg : GoString
  deriving DecidableEq, Repr

/-- Error values that flow through this file. -/
inductive GoError
  | ErrShortWrite
  | errCharDevice
  | errUnknownReader
  | statFailed
  | other (code : Nat)
  deriving DecidableEq, Repr

/-- What `Stat` reports of an open file. -/
structure FileInfo where
  charDevice : Bool
  size : Int
  deriving DecidableEq, Repr

/-- The kinds of `io.Reader` that `getReaderSize` tells apart. -/
inductive Reader
  | bytesBuffer (unread : GoString)
  | osFile (stat : Option FileInfo)
  | stringsReader (s : GoString)
  | other (id : Nat)
  deriving DecidableEq, Repr

/-- A caller-supplied `io.Writer`: the result `(n, err)` of `Write(p)`, given the slices
it was handed before. -/
structure CallerWriter where
  reply : List GoString → GoString → Nat × Option GoError

/-- A caller-supplied writer that accepts every write in full. -/
def CallerWriter.AcceptsAll (w : CallerWriter) : Prop :=
  ∀ hist p, w.reply hist p = (p.length, none)

/-- Whether the literal `r` and the mask `m` overlap: one occurs in the other, or a
non-empty end of one is a beginning of the other. -/
def overlaps (r m : GoString) : Bool :=
  strings.Contains m r || strings.Contains r m
    || r.tails.any (fun u => u != [] && strings.HasPrefix m u)
    || m.tails.any (fun v => v != [] && strings.HasPrefix r v)

/-- RedactFunc is a function that takes a string and returns a redacted string. -/
abbrev RedactFunc := GoString → GoString

/-- DecorateFunc is a function that takes a string and returns a decorated string. -/
abbrev DecorateFunc := GoString → GoString

/-! ## The options record -/

/-- ExecOptions is a collection of exec options. -/
structure ExecOptions where
  in_ : Option Reader
  out : Option CallerWriter
  errOut : Option CallerWriter
  allowWinStderr : Bool
  logInfo : Bool
  logDebug : Bool
  logError : Bool
  logCommand : Bool
  logOutput : Bool
  logInput : Bool
  streamOutput : Bool
  trimOutput : Bool
  wroteErr : Bool
  redactFuncs : List RedactFunc
  decorateFuncs : List DecorateFunc

/-- ExecOption is a functional option: a mutation of the record. -/
abbrev ExecOption := ExecOptions → ExecOptions

/-- The loop of `decodeEncoded` over `parts`: `k` iterations remain, `i` is the index of
the current one.  `none` is the run-time abort of indexing `parts[i+1]` out of range. -/
def decodeLoop : Nat → Nat → List GoString → Option (List GoString)
  | 0, _, parts => some parts
  | k + 1, i, parts =>
    let p := parts.getD i []
    if p = lit "-E" || (p = lit "-EncodedCommand" && decide (parts.length > i + 1)) then
      match parts.get? (i + 1) with
      | none => none
      | some q =>
        match base64.DecodeString q with
        | some decoded =>
          decodeLoop k (i + 1) (parts.set (i + 1) (strings.ReplaceAll decoded [0] []))
        | none => decodeLoop k (i + 1) parts
    else decodeLoop k (i + 1) parts

/-- The function `decodeEncoded`. -/
def decodeEncoded (cmd : GoString) : Option GoString :=
  if !strings.Contains cmd (lit "powershell") then some cmd
  else
    let parts := strings.Split cmd 32
    (decodeLoop parts.length 0 parts).map (fun parts => strings.Join parts (lit " "))

/-- Whether a token is one of the flags after which `decodeEncoded` expects an encoded
command. -/
def isEncodedFlag (p : GoString) : Bool := p == lit "-E" || p == lit "-EncodedCommand"

/-- What `decodeEncoded` puts in the place of a token it tries to decode: the base64
decoding with all NUL bytes removed, or the token itself when it is not valid standard
base64. -/
def decodeToken (q : GoString) : GoString :=
  match base64.DecodeString q with
  | some decoded => strings.ReplaceAll decoded [0] []
  | none => q

/-- The expansion of the tokens of a command in the words of the specification: a token
that follows a `-E` or `-EncodedCommand` token is replaced by its decoded text when it is
valid base64, and every other token is kept.  `afterFlag` tells whether the token before
the list is such a flag. -/
def expandTokensSpec : Bool → List GoString → List GoString
  | _, [] => []
  | afterFlag, t :: ts =>
    (if afterFlag then decodeToken t else t) :: expandTokensSpec (isEncodedFlag t) ts

/-- The result of `decodeEncoded` in the words of the specification: the command itself
without the marker `powershell`, else its tokens expanded and joined again. -/
def decodeEncodedSpec (cmd : GoString) : GoString :=
  if !strings.Contains cmd (lit "powershell") then cmd
  else strings.Join (expandTokensSpec false (strings.Split cmd 32)) (lit " ")

/-- Whether a token is valid base64 whose decoded text is itself a flag. -/
def decodesToFlag (q : GoString) : Bool :=
  match base64.DecodeString q with
  | some decoded => isEncodedFlag (strings.ReplaceAll decoded [0] [])
  | none => false

/-- No token that follows a flag decodes to a flag. -/
def noFlagFromDecoding : List GoString → Bool
  | p :: q :: rest => !(isEncodedFlag p && decodesToFlag q) && noFlagFromDecoding (q :: rest)
  | _ => true

/-- No token that follows a flag is valid base64. -/
def nothingToDecode : List GoString → Bool
  | p :: q :: rest =>
    !(isEncodedFlag p && (base64.DecodeString q).isSome) && nothingToDecode (q :: rest)
  | _ => true

/-- The loop of `decodeEncoded` read off the token list: `cur` is the current token as
the loop finds it, the list holds the tokens after it; the result is the final token
list from `cur` on, `none` the abort. -/
def decodeFrom : GoString → List GoString → Option (List GoString)
  | cur, [] => if cur = lit "-E" then none else some [cur]
  | cur, q :: rest =>
    if isEncodedFlag cur then (decodeFrom (decodeToken q) rest).map (fun out => cur :: out)
    else (decodeFrom q rest).map (fun out => cur :: out)

namespace ExecOptions

/-- Command returns the command string with all decorators applied. -/
def Command (o : ExecOptions) (cmd : GoString) : GoString :=
  o.decorateFuncs.foldl (fun cmd decorator => decorator cmd) cmd

/-- Redact is for filtering out sensitive text. -/
def Redact (g : Globals) (o : ExecOptions) (s : GoString) : GoString :=
  if g.DisableRedact || o.redactFuncs.length == 0 then s
  else o.redactFuncs.foldl (fun s fn => fn s) s

/-- LogCmd is for logging the command to be executed: the logger calls it makes, or
`none` when `decodeEncoded` aborts. -/
def LogCmd (g : Globals) (o : ExecOptions) (cmd : GoString) : Option (List LogRecord) :=
  if o.logCommand then
    (decodeEncoded cmd).map
      (fun d => [⟨.debug, lit "executing \x60" ++ o.Redact g d ++ lit "\x60"⟩])
  else some [⟨.debug, lit "executing command"⟩]

/-- FormatOutput is for trimming whitespace from the command output if TrimOutput is
enabled. -/
def FormatOutput (o : ExecOptions) (s : GoString) : GoString :=
  if o.trimOutput then strings.TrimSpace s else s

/-- WroteErr returns true if the command wrote to stderr. -/
def WroteErr (o : ExecOptions) : Bool := o.wroteErr

end ExecOptions

/-! ## Endpoints -/

/-- The mutable state of one command execution: the options record (whose `wroteErr`
field the error endpoint sets), the logger calls made so far, and the slices handed so
far to the caller-supplied output and error writers. -/
structure Proc where
  opts : ExecOptions
  log : List LogRecord
  outWritten : List GoString
  errWritten : List GoString

/-- The two caller-supplied sinks. -/
inductive Sink
  | out
  | errOut
  deriving DecidableEq, Repr

/-- The writers this file composes. -/
inductive Writer
  | logWriter (level : Severity)
  | redactingWriter (w : Writer)
  | flaggingWriter
  | caller (sink : Sink) (w : CallerWriter)

/-- Method `logWriter.Write`: writes the given bytes to the log function. -/
def logWriterWrite (level : Severity) (st : Proc) (p : GoString) :
    Proc × Nat × Option GoError :=
  ({ st with log := st.log ++ [⟨level, p⟩] }, p.length, none)

/-- Method `flaggingWriter.Write`: a discarding writer that sets a flag when it writes
something. -/
def flaggingWriterWrite (st : Proc) (p : GoString) : Proc × Nat × Option GoError :=
  (if !st.opts.wroteErr && decide (p.length > 0) then
      { st with opts := { st.opts with wroteErr := true } }
    else st,
   p.length, none)

/-- A write to a caller-supplied writer: the slice is recorded and the writer's own
result is returned. -/
def callerWrite (sink : Sink) (w : CallerWriter) (st : Proc) (p : GoString) :
    Proc × Nat × Option GoError :=
  match sink with
  | .out => ({ st with outWritten := st.outWritten ++ [p] }, w.reply st.outWritten p)
  | .errOut => ({ st with errWritten := st.errWritten ++ [p] }, w.reply st.errWritten p)

/-- Modelled from the spec: the type `redactingWriter` is used by `execoptions.go` and
declared elsewhere in the package.  Per the spec every log tap redacts the text before
it emits the log record and counts the write as accepted in full: the wrapped writer is
handed `fn(string(p))` and the result is `len(p)`, or the wrapped writer's error. -/
def redactingWriterWrite (inner : Proc → GoString → Proc × Nat × Option GoError)
    (fn : GoString → GoString) (st : Proc) (p : GoString) : Proc × Nat × Option GoError :=
  match inner st (fn p) with
  | (st', _, some e) => (st', 0, some e)
  | (st', _, none) => (st', p.length, none)

/-- Method `Write` of each writer. -/
def Writer.Write (g : Globals) : Writer → Proc → GoString → Proc × Nat × Option GoError
  | .logWriter level, st, p => logWriterWrite level st p
  | .redactingWriter w, st, p => redactingWriterWrite (w.Write g) (st.opts.Redact g) st p
  | .flaggingWriter, st, p => flaggingWriterWrite st p
  | .caller sink w, st, p => callerWrite sink w st p

/-- Go `io.MultiWriter(writers...).Write`: each writer in turn; the first error, or a
short count turned into `ErrShortWrite`, ends the write. -/
def multiWrite (g : Globals) : List Writer → Proc → GoString → Proc × Nat × Option GoError
  | [], st, p => (st, p.length, none)
  | w :: ws, st, p =>
    match w.Write g st p with
    | (st', n, some e) => (st', n, some e)
    | (st', n, none) =>
      if n ≠ p.length then (st', n, some .ErrShortWrite) else multiWrite g ws st' p

/-- A sequence of writes to one endpoint, whatever each write returns. -/
def writeAll (g : Globals) (ws : List Writer) (st : Proc) (ps : List GoString) : Proc :=
  ps.foldl (fun st p => (multiWrite g ws st p).1) st

/-- Go `%d` of an integer. -/
def formatInt (n : Int) : GoString :=
  match n with
  | .ofNat k => lit (Nat.repr k)
  | .negSucc k => lit "-" ++ lit (Nat.repr (k + 1))

/-- The function `getReaderSize`. -/
def getReaderSize (reader : Reader) : Int × Option GoError :=
  match reader with
  | .bytesBuffer unread => (unread.length, none)
  | .osFile none => (0, some .statFailed)
  | .osFile (some stat) => if stat.charDevice then (0, some .errCharDevice) else (stat.size, none)
  | _ => (0, some .errUnknownReader)

/-- What `Stdin()` returns: the raw reader, or a `TeeReader` over it that writes what is
read to the given writer. -/
inductive StdinReader
  | raw (r : Reader)
  | tee (r : Reader) (w : Writer)

/-- Whether the returned reader duplicates what is read into the log. -/
def StdinReader.isTee : StdinReader → Bool
  | .raw _ => false
  | .tee _ _ => true

namespace ExecOptions

/-- Stdin returns the Stdin reader (and the logger calls made on the way).  If input
logging is enabled, it is a TeeReader that writes to the log. -/
def Stdin (o : ExecOptions) : Option StdinReader × List LogRecord :=
  match o.in_ with
  | none => (none, [])
  | some r =>
    let (size, err) := getReaderSize r
    let rec_ : LogRecord :=
      if err = none ∧ size > 0 then
        ⟨.debug, lit "using " ++ formatInt size ++ lit " bytes of data from reader as command input"⟩
      else ⟨.debug, lit "using data from reader as command input"⟩
    if o.logInput then (some (.tee r (.redactingWriter (.logWriter .debug))), [rec_])
    else (some (.raw r), [rec_])

/-- Stdout returns the members of the Stdout MultiWriter. -/
def Stdout (o : ExecOptions) : List Writer :=
  let writers : List Writer :=
    if o.streamOutput then [.redactingWriter (.logWriter .info)]
    else if o.logOutput then [.redactingWriter (.logWriter .debug)]
    else []
  match o.out with
  | some w => writers ++ [.caller .out w]
  | none => writers

/-- Stderr returns the members of the Stderr MultiWriter. -/
def Stderr (o : ExecOptions) : List Writer :=
  let writers : List Writer :=
    if o.streamOutput then [.redactingWriter (.logWriter .error)]
    else if o.logError then [.redactingWriter (.logWriter .debug)]
    else []
  let writers := writers ++ [.flaggingWriter]
  match o.errOut with
  | some w => writers ++ [.caller .errOut w]
  | none => writers

/-- Apply the supplied options to the record, in order. -/
def Apply (o : ExecOptions) (opts : List ExecOption) : ExecOptions :=
  opts.foldl (fun o opt => opt o) o

end ExecOptions

/-! ## Functional options -/

/-- AllowWinStderr exec option allows command to output to stderr without failing. -/
def AllowWinStderr : ExecOption := fun o => { o with allowWinStderr := true }

/-- Stdin exec option for sending data to the command through stdin. -/
def Stdin (r : Reader) : ExecOption := fun o => { o with in_ := some r }

/-- StdinString exec option for sending string data to the command through stdin. -/
def StdinString (s : GoString) : ExecOption := fun o => { o with in_ := some (.stringsReader s) }

/-- Stdout exec option for sending command stdout to an io.Writer. -/
def Stdout (w : CallerWriter) : ExecOption := fun o => { o with out := some w }

/-- Stderr exec option for sending command stderr to an io.Writer. -/
def Stderr (w : CallerWriter) : ExecOption := fun o => { o with errOut := some w }

/-- StreamOutput exec option for sending the command output to info log. -/
def StreamOutput : ExecOption := fun o => { o with streamOutput := true }

/-- LogError exec option for enabling or disabling live error logging during exec. -/
def LogError (v : Bool) : ExecOption := fun o => { o with logError := v }

/-- HideCommand exec option for hiding the command-string and stdin contents from the
logs. -/
def HideCommand : ExecOption := fun o => { o with logCommand := false }

/-- HideOutput exec option for hiding the command output from logs. -/
def HideOutput : ExecOption := fun o => { o with logOutput := false, logError := false }

/-- Sensitive exec option for disabling all logging of the command. -/
def Sensitive : ExecOption := fun o =>
  { o with logDebug := false, logInfo := false, logError := false, logCommand := false }

/-- Redact exec option for a pattern, given by what `ReplaceAllString` of the compiled
pattern computes from the text and the replacement. -/
def Redact (g : Globals) (reReplaceAllString : GoString → GoString → GoString) : ExecOption :=
  fun o => { o with redactFuncs := o.redactFuncs ++ [fun s => reReplaceAllString s g.RedactMask] }

/-- The redaction rule that `RedactString` registers: the closure over the non-empty
literals `newS`. -/
def redactStringFunc (g : Globals) (newS : List GoString) : RedactFunc :=
  fun s2 => newS.foldl (fun newstr r => strings.ReplaceAll newstr r g.RedactMask) s2

/-- The replacement of every occurrence in the words of the specification, without
reference to how the code scans: `out` is `s` with every occurrence of the non-empty
literal `r`, taken from left to right without overlap, replaced by `mask`.  The text `s`
is cut at these occurrences into `pieces`, each followed by `r`, and a `last` piece; `r`
occurs in a piece followed by `r` at the very end only, and not in the last piece; `out`
has `mask` wherever `s` has such an `r`. -/
def ReplacesEvery (r mask s out : GoString) : Prop :=
  ∃ (pieces : List GoString) (last : GoString),
    s = (pieces.map (fun p => p ++ r)).flatten ++ last ∧
    out = (pieces.map (fun p => p ++ mask)).flatten ++ last ∧
    (∀ p ∈ pieces, ¬ r <:+: p ++ r.dropLast) ∧ ¬ r <:+: last

/-- The literal-set rule in the words of the specification: `out` results from `s` by
successively replacing, in the order the literals were given, every occurrence of each
non-empty literal by the mask token, empty literals being ignored. -/
inductive ReplacesLiterals (mask : GoString) : List GoString → GoString → GoString → Prop
  | done (s : GoString) : ReplacesLiterals mask [] s s
  | ignoreEmpty (literals : List GoString) (s out : GoString) :
      ReplacesLiterals mask literals s out → ReplacesLiterals mask ([] :: literals) s out
  | replace (r : GoString) (literals : List GoString) (s mid out : GoString) :
      r ≠ [] → ReplacesEvery r mask s mid → ReplacesLiterals mask literals mid out →
      ReplacesLiterals mask (r :: literals) s out

/-- The fold of `RedactString` with the test for the empty literal inside the loop
instead of before it. -/
def replaceLiteralsSpec (mask : GoString) (literals : List GoString) (s : GoString) : GoString :=
  literals.foldl (fun acc r => if r = [] then acc else strings.ReplaceAll acc r mask) s

/-- RedactString exec option for defining one or more strings to replace with the mask
in the log output. -/
def RedactString (g : Globals) (s : List GoString) : ExecOption :=
  let newS := s.filter (fun str => str != [])
  fun o => { o with redactFuncs := o.redactFuncs ++ [redactStringFunc g newS] }

/-- LogInput exec option for enabling or disabling live input logging during exec. -/
def LogInput (v : Bool) : ExecOption := fun o => { o with logInput := v }

/-- TrimOutput exec option for controlling if the output of the command will be trimmed
of whitespace. -/
def TrimOutput (v : Bool) : ExecOption := fun o => { o with trimOutput := v }

/-- Decorate exec option for applying a custom decorator to the command string. -/
def Decorate (decorator : DecorateFunc) : ExecOption :=
  fun o => { o with decorateFuncs := o.decorateFuncs ++ [decorator] }

/-- PS exec option for using powershell to execute the command; `powershellCmd` is the
decorator of the powershell package. -/
def PS (powershellCmd : DecorateFunc) : ExecOption := Decorate powershellCmd

/-- PSCompressed is like PS but for long command scriptlets; `powershellCompressedCmd`
is the decorator of the powershell package. -/
def PSCompressed (powershellCompressedCmd : DecorateFunc) : ExecOption :=
  Decorate powershellCompressedCmd

/-- The record `Build` starts from: the fields it names, every other field zero. -/
def defaults : ExecOptions where
  in_ := none
  out := none
  errOut := none
  allowWinStderr := false
  logInfo := false
  logCommand := true
  logDebug := true
  logError := true
  logOutput := true
  logInput := false
  streamOutput := false
  trimOutput := true
  wroteErr := false
  redactFuncs := []
  decorateFuncs := []

/-- Build returns an instance of the options record. -/
def Build (opts : List ExecOption) : ExecOptions := defaults.Apply opts

/-- The option values the constructors of `execoptions.go` produce. -/
inductive FileOption (g : Globals) : ExecOption → Prop
  | allowWinStderr : FileOption g AllowWinStderr
  | stdin (r : Reader) : FileOption g (Stdin r)
  | stdinString (s : GoString) : FileOption g (StdinString s)
  | stdout (w : CallerWriter) : FileOption g (Stdout w)
  | stderr (w : CallerWriter) : FileOption g (Stderr w)
  | streamOutput : FileOption g StreamOutput
  | logError (v : Bool) : FileOption g (LogError v)
  | hideCommand : FileOption g HideCommand
  | hideOutput : FileOption g HideOutput
  | sensitive : FileOption g Sensitive
  | redact (re : GoString → GoString → GoString) : FileOption g (Redact g re)
  | redactString (s : List GoString) : FileOption g (RedactString g s)
  | logInput (v : Bool) : FileOption g (LogInput v)
  | trimOutput (v : Bool) : FileOption g (TrimOutput v)
  | decorate (d : DecorateFunc) : FileOption g (Decorate d)

/-- The process state at the start of an execution with options record `o`. -/
def Proc.start (o : ExecOptions) : Proc := ⟨o, [], [], []⟩


/-! ## Lemmas on strings -/

namespace strings

theorem hasPrefix_iff (s pre : GoString) : HasPrefix s pre = true ↔ pre <+: s := by
  unfold HasPrefix
  exact List.isPrefixOf_iff_prefix

theorem contains_iff (s substr : GoString) : Contains s substr = true ↔ substr <:+: s := by
  induction s with
  | nil =>
    simp only [Contains, hasPrefix_iff]
    constructor
    · intro h; exact h.isInfix
    · intro h; rw [List.infix_nil] at h; rw [h]
  | cons c t ih =>
    simp only [Contains, Bool.or_eq_true, hasPrefix_iff, ih, List.infix_cons_iff]

theorem replaceScan_fuel (old new : GoString) (hold : old ≠ []) :
    ∀ (n : Nat) (s : GoString), s.length ≤ n →
      replaceScan old new n s = replaceScan old new s.length s := by
  intro n
  induction n using Nat.strong_induction_on with
  | _ n ih =>
    intro s hs
    cases s with
    | nil => cases n <;> simp [replaceScan]
    | cons c t =>
      cases n with
      | zero => simp at hs
      | succ m =>
        have hpos : 0 < old.length := List.length_pos.mpr hold
        have ht : t.length ≤ m := by simpa using hs
        have hlen : ((c :: t).drop old.length).length ≤ t.length := by
          simp only [List.length_drop, List.length_cons]; omega
        simp only [List.length_cons, replaceScan]
        split
        · rw [ih m (by omega) _ (by omega)]
          rcases Nat.lt_or_ge t.length (m + 1) with h | h
          · rw [ih t.length h _ hlen]
          · omega
        · rw [ih m (by omega) _ ht]

theorem replaceAll_nil (old new : GoString) (hold : old ≠ []) : ReplaceAll [] old new = [] := by
  cases old with
  | nil => exact absurd rfl hold
  | cons a as => rfl

theorem replaceAll_cons_match (c : Byte) (t old new : GoString) (hold : old ≠ [])
    (h : HasPrefix (c :: t) old = true) :
    ReplaceAll (c :: t) old new = new ++ ReplaceAll ((c :: t).drop old.length) old new := by
  cases old with
  | nil => exact absurd rfl hold
  | cons a as =>
    have hlen : ((c :: t).drop (a :: as).length).length ≤ t.length := by
      simp only [List.length_drop, List.length_cons]; omega
    have e := replaceScan_fuel (a :: as) new hold t.length _ hlen
    simp only [List.length_cons] at e
    simp only [ReplaceAll, List.length_cons, replaceScan, h, if_true, e]

theorem replaceAll_cons_skip (c : Byte) (t old new : GoString) (hold : old ≠ [])
    (h : HasPrefix (c :: t) old = false) :
    ReplaceAll (c :: t) old new = c :: ReplaceAll t old new := by
  cases old with
  | nil => exact absurd rfl hold
  | cons a as =>
    simp [ReplaceAll, List.length_cons, replaceScan, h]

end strings

namespace strings

theorem replaceAll_of_not_contains (s old new : GoString) (hold : old ≠ [])
    (h : Contains s old = false) : ReplaceAll s old new = s := by
  induction s with
  | nil => exact replaceAll_nil old new hold
  | cons c t ih =>
    simp only [Contains, Bool.or_eq_false_iff] at h
    rw [replaceAll_cons_skip c t old new hold h.1, ih h.2]

/-- A piece of the literal that is a beginning of the redacted text is a beginning of
the original text, when literal and mask do not overlap. -/
theorem prefix_of_prefix_replaceAll (r m : GoString) (hr : r ≠ [])
    (ha : ∀ u : GoString, u ≠ [] → u <:+ r → ¬ u <+: m) (hb : ¬ m <:+: r) :
    ∀ (s u : GoString), u <:+ r → u <+: ReplaceAll s r m → u <+: s := by
  intro s
  induction s with
  | nil =>
    intro u _ hu
    rwa [replaceAll_nil r m hr] at hu
  | cons c t ih =>
    intro u hur hu
    by_cases hne : u = []
    · subst hne; exact List.nil_prefix
    cases hm : HasPrefix (c :: t) r with
    | true =>
      rw [replaceAll_cons_match c t r m hr hm] at hu
      rcases List.prefix_or_prefix_of_prefix hu (List.prefix_append m _) with h | h
      · exact absurd h (ha u hne hur)
      · exact absurd (h.isInfix.trans hur.isInfix) hb
    | false =>
      rw [replaceAll_cons_skip c t r m hr hm] at hu
      cases u with
      | nil => exact absurd rfl hne
      | cons a u' =>
        rw [List.cons_prefix_cons] at hu
        rw [List.cons_prefix_cons]
        exact ⟨hu.1, ih u' ((List.suffix_cons a u').trans hur) hu.2⟩

theorem infix_append_cases (r m x : GoString) (h : r <:+: m ++ x) :
    r <:+: m ∨ r <:+: x ∨ ∃ v : GoString, v ≠ [] ∧ v <:+ m ∧ v <+: r := by
  induction m with
  | nil => right; left; simpa using h
  | cons a m' ih =>
    rw [List.cons_append, List.infix_cons_iff] at h
    rcases h with h | h
    · rw [← List.cons_append] at h
      rcases List.prefix_or_prefix_of_prefix h (List.prefix_append (a :: m') x) with h1 | h1
      · left; exact h1.isInfix
      · right; right; exact ⟨a :: m', by simp, List.suffix_refl _, h1⟩
    · rcases ih h with h1 | h1 | ⟨v, hv, hvm, hvr⟩
      · left; exact h1.trans (List.suffix_cons a m').isInfix
      · right; left; exact h1
      · right; right; exact ⟨v, hv, hvm.trans (List.suffix_cons a m'), hvr⟩

/-- The redacted text holds no occurrence of the literal when literal and mask do not
overlap. -/
theorem not_infix_replaceAll (r m : GoString) (hr : r ≠ [])
    (ha : ∀ u : GoString, u ≠ [] → u <:+ r → ¬ u <+: m) (hb : ¬ m <:+: r)
    (hc : ¬ r <:+: m) (hd : ∀ v : GoString, v ≠ [] → v <:+ m → ¬ v <+: r) :
    ∀ (n : Nat) (s : GoString), s.length ≤ n → ¬ r <:+: ReplaceAll s r m := by
  intro n
  induction n with
  | zero =>
    intro s hs hinf
    have : s = [] := List.length_eq_zero.mp (by omega)
    subst this
    rw [replaceAll_nil r m hr, List.infix_nil] at hinf
    exact hr hinf
  | succ n ih =>
    intro s hs hinf
    cases s with
    | nil =>
      rw [replaceAll_nil r m hr, List.infix_nil] at hinf
      exact hr hinf
    | cons c t =>
      have ht : t.length ≤ n := by simpa using hs
      cases hm : HasPrefix (c :: t) r with
      | true =>
        rw [replaceAll_cons_match c t r m hr hm] at hinf
        have hpos : 0 < r.length := List.length_pos.mpr hr
        have hlen : ((c :: t).drop r.length).length ≤ n := by
          simp only [List.length_drop, List.length_cons]; omega
        rcases infix_append_cases r m _ hinf with h | h | ⟨v, hv, hvm, hvr⟩
        · exact hc h
        · exact ih _ hlen h
        · exact hd v hv hvm hvr
      | false =>
        have hskip := replaceAll_cons_skip c t r m hr hm
        rw [hskip, List.infix_cons_iff] at hinf
        rcases hinf with h | h
        · rw [← hskip] at h
          have := prefix_of_prefix_replaceAll r m hr ha hb (c :: t) r (List.suffix_refl r) h
          rw [← hasPrefix_iff, hm] at this
          exact Bool.false_ne_true this
        · exact ih t ht h

end strings

theorem overlaps_false (r m : GoString) (h : overlaps r m = false) :
    (∀ u : GoString, u ≠ [] → u <:+ r → ¬ u <+: m) ∧ ¬ m <:+: r ∧ ¬ r <:+: m ∧
      (∀ v : GoString, v ≠ [] → v <:+ m → ¬ v <+: r) := by
  simp only [overlaps, Bool.or_eq_false_iff, List.any_eq_false, Bool.and_eq_true, bne_iff_ne,
    ne_eq, not_and, List.mem_tails, Bool.not_eq_true] at h
  obtain ⟨⟨⟨h1, h2⟩, h3⟩, h4⟩ := h
  refine ⟨?_, ?_, ?_, ?_⟩
  · intro u hu hur hum
    have := h3 u hur hu
    rw [(strings.hasPrefix_iff m u).mpr hum] at this
    exact Bool.noConfusion this
  · intro hmr
    rw [(strings.contains_iff r m).mpr hmr] at h2
    exact Bool.noConfusion h2
  · intro hrm
    rw [(strings.contains_iff m r).mpr hrm] at h1
    exact Bool.noConfusion h1
  · intro v hv hvm hvr
    have := h4 v hvm hv
    rw [(strings.hasPrefix_iff r v).mpr hvr] at this
    exact Bool.noConfusion this

theorem foldl_fixed (fs : List RedactFunc) (s : GoString) (h : ∀ f ∈ fs, f s = s) :
    fs.foldl (fun s fn => fn s) s = s := by
  induction fs with
  | nil => rfl
  | cons f fs ih =>
    rw [List.foldl_cons, h f (List.mem_cons_self f fs)]
    exact ih (fun f' hf' => h f' (List.mem_cons_of_mem f hf'))

/-! ## Redaction -/

theorem redact_single_rule (g : Globals) (o : ExecOptions) (L : List GoString) (s : GoString)
    (hk : g.DisableRedact = false) (ho : o.redactFuncs = []) :
    (RedactString g L o).Redact g s = redactStringFunc g (L.filter (fun str => str != [])) s := by
  simp [ExecOptions.Redact, RedactString, hk, ho]

theorem foldl_filter_nonempty (mask : GoString) (L : List GoString) (s : GoString) :
    (L.filter (fun str => str != [])).foldl
        (fun newstr r => strings.ReplaceAll newstr r mask) s
      = replaceLiteralsSpec mask L s := by
  induction L generalizing s with
  | nil => rfl
  | cons r L ih =>
    by_cases hr : r = []
    · subst hr
      simpa [replaceLiteralsSpec, List.filter] using ih s
    · have : (r != []) = true := by simpa using hr
      simp only [List.filter, this, List.foldl_cons, replaceLiteralsSpec, hr, if_false]
      exact ih _

theorem replaceLiteralsSpec_fixed (mask : GoString) (L : List GoString) (s : GoString)
    (h : ∀ r ∈ L, r ≠ [] → strings.Contains s r = false) : replaceLiteralsSpec mask L s = s := by
  induction L with
  | nil => rfl
  | cons r L ih =>
    have hrest := ih (fun r' hr' => h r' (List.mem_cons_of_mem r hr'))
    by_cases hr : r = []
    · simpa [replaceLiteralsSpec, hr] using hrest
    · have h1 := strings.replaceAll_of_not_contains s r mask hr (h r (List.mem_cons_self r L) hr)
      simpa [replaceLiteralsSpec, hr, h1] using hrest

/-- C1: with the kill switch `DisableRedact` on, `Redact(s)` returns exactly `s`, for
every options record, whatever redaction rules are registered. -/
theorem redact_kill_switch_identity (g : Globals) (o : ExecOptions) (s : GoString)
    (h : g.DisableRedact = true) : o.Redact g s = s := by
  simp [ExecOptions.Redact, h]

theorem redact_kill_switch_identity_witness :
    (Globals.mk true DefaultRedactMask).DisableRedact = true ∧
      (Build [RedactString ⟨true, DefaultRedactMask⟩ [lit "secret123"]]).Redact
          ⟨true, DefaultRedactMask⟩ (lit "run --token secret123")
        = lit "run --token secret123" :=
  ⟨rfl, redact_kill_switch_identity _ _ _ rfl⟩

/-- C2, as stated, fails: with the kill switch off and the mask `[REDACTED]`, the only
rule being `RedactString("RED")`, the text `code RED` is redacted to `code [REDACTED]`,
in which the literal `RED` occurs; and with the only rule `RedactString("]x")` the text
`]xx` is redacted to `[REDACTED]x`, in which `]x` occurs. -/
theorem redactString_literal_reappears :
    lit "RED" ≠ [] ∧
      (Build [RedactString ⟨false, DefaultRedactMask⟩ [lit "RED"]]).Redact
          ⟨false, DefaultRedactMask⟩ (lit "code RED") = lit "code [REDACTED]" ∧
      strings.Contains
          ((Build [RedactString ⟨false, DefaultRedactMask⟩ [lit "RED"]]).Redact
            ⟨false, DefaultRedactMask⟩ (lit "code RED")) (lit "RED") = true ∧
      strings.Contains
          ((Build [RedactString ⟨false, DefaultRedactMask⟩ [lit "]x"]]).Redact
            ⟨false, DefaultRedactMask⟩ (lit "]xx")) (lit "]x") = true := by
  decide

/-- C2, amended: for every non-empty literal `r` that does not overlap the mask token
(neither occurs in the other, and no non-empty end of one is a beginning of the other)
and every string `s`, with the kill switch off, `Redact(s)` on a configuration whose
only redaction rule is `RedactString(r)` contains no occurrence of `r`. -/
theorem redactString_masks_literal (g : Globals) (o : ExecOptions) (r s : GoString)
    (hk : g.DisableRedact = false) (ho : o.redactFuncs = []) (hr : r ≠ [])
    (hno : overlaps r g.RedactMask = false) :
    strings.Contains ((RedactString g [r] o).Redact g s) r = false := by
  obtain ⟨ha, hb, hc, hd⟩ := overlaps_false r g.RedactMask hno
  have hne : (r != []) = true := by simpa using hr
  rw [redact_single_rule g o [r] s hk ho]
  simp only [List.filter, hne, redactStringFunc, List.foldl_cons, List.foldl_nil]
  cases hcon : strings.Contains (strings.ReplaceAll s r g.RedactMask) r with
  | false => rfl
  | true =>
    exact absurd ((strings.contains_iff _ _).mp hcon)
      (strings.not_infix_replaceAll r g.RedactMask hr ha hb hc hd s.length s (le_refl _))

theorem redactString_masks_literal_witness :
    (Globals.mk false DefaultRedactMask).DisableRedact = false ∧
      defaults.redactFuncs = [] ∧ lit "secret123" ≠ [] ∧
      overlaps (lit "secret123") (Globals.mk false DefaultRedactMask).RedactMask = false ∧
      strings.Contains
        ((RedactString ⟨false, DefaultRedactMask⟩ [lit "secret123"] defaults).Redact
          ⟨false, DefaultRedactMask⟩ (lit "run --token secret123 --again secret123"))
        (lit "secret123") = false :=
  ⟨rfl, rfl, by decide, by decide,
    redactString_masks_literal ⟨false, DefaultRedactMask⟩ defaults (lit "secret123")
      (lit "run --token secret123 --again secret123") rfl rfl (by decide) (by decide)⟩

namespace strings

theorem not_infix_dropLast (r : GoString) (hr : r ≠ []) : ¬ r <:+: r.dropLast := by
  intro h
  have h1 := h.length_le
  have h2 : 0 < r.length := List.length_pos.mpr hr
  rw [List.length_dropLast] at h1
  omega

theorem dropLast_isPrefix_append (p r x : GoString) : p ++ r.dropLast <+: p ++ (r ++ x) :=
  (List.prefix_append_right_inj p).mpr (( List.dropLast_prefix r).trans (List.prefix_append r x))

/-- Up to the first occurrence of the literal the text is copied, and the occurrence
becomes the mask. -/
theorem replaceAll_piece (r mask : GoString) (hr : r ≠ []) (rest : GoString) :
    ∀ p : GoString, ¬ r <:+: p ++ r.dropLast →
      ReplaceAll (p ++ (r ++ rest)) r mask = p ++ (mask ++ ReplaceAll rest r mask) := by
  intro p
  induction p with
  | nil =>
    intro _
    cases hrr : r with
    | nil => exact absurd hrr hr
    | cons a as =>
      have hm : HasPrefix (a :: (as ++ rest)) (a :: as) = true :=
        (hasPrefix_iff _ _).mpr (List.prefix_append (a :: as) rest)
      have hdrop : (a :: (as ++ rest)).drop (a :: as).length = rest :=
        List.drop_left' rfl
      have := replaceAll_cons_match a (as ++ rest) (a :: as) mask (by simp) hm
      rw [hdrop] at this
      simpa using this
  | cons c p ih =>
    intro hno
    have hskip : HasPrefix (c :: (p ++ (r ++ rest))) r = false := by
      cases hm : HasPrefix (c :: (p ++ (r ++ rest))) r with
      | false => rfl
      | true =>
        have h1 : r <+: (c :: p) ++ (r ++ rest) := (hasPrefix_iff _ _).mp hm
        have h2 := dropLast_isPrefix_append (c :: p) r rest
        have hlen : r.length ≤ ((c :: p) ++ r.dropLast).length := by
          have : 0 < r.length := List.length_pos.mpr hr
          simp only [List.length_append, List.length_cons, List.length_dropLast]
          omega
        exact absurd (List.prefix_of_prefix_length_le h1 h2 hlen).isInfix hno
    have hno' : ¬ r <:+: p ++ r.dropLast := fun h =>
      hno (h.trans (List.suffix_cons c (p ++ r.dropLast)).isInfix)
    rw [List.cons_append, replaceAll_cons_skip c _ r mask hr hskip, ih hno', List.cons_append]

/-- Every text can be cut at the occurrences of the literal, taken from left to right
without overlap. -/
theorem exists_pieces (r : GoString) (hr : r ≠ []) :
    ∀ (n : Nat) (s : GoString), s.length ≤ n →
      ∃ (pieces : List GoString) (last : GoString),
        s = (pieces.map (fun p => p ++ r)).flatten ++ last ∧
        (∀ p ∈ pieces, ¬ r <:+: p ++ r.dropLast) ∧ ¬ r <:+: last := by
  intro n
  induction n with
  | zero =>
    intro s hs
    have : s = [] := List.length_eq_zero.mp (by omega)
    subst this
    exact ⟨[], [], rfl, by simp, fun h => hr (List.infix_nil.mp h)⟩
  | succ n ih =>
    intro s hs
    cases s with
    | nil => exact ⟨[], [], rfl, by simp, fun h => hr (List.infix_nil.mp h)⟩
    | cons c t =>
      have ht : t.length ≤ n := by simpa using hs
      by_cases hp : r <+: c :: t
      · obtain ⟨u, hu⟩ := hp
        have hpos : 0 < r.length := List.length_pos.mpr hr
        have hlen : u.length ≤ n := by
          have := congrArg List.length hu
          simp only [List.length_append, List.length_cons] at this
          omega
        obtain ⟨pieces, last, hs', hpc, hl⟩ := ih u hlen
        refine ⟨[] :: pieces, last, ?_, ?_, hl⟩
        · rw [← hu, hs']
          simp
        · intro p hpm
          rcases List.mem_cons.mp hpm with rfl | hpm
          · simpa using not_infix_dropLast r hr
          · exact hpc p hpm
      · obtain ⟨pieces, last, hs', hpc, hl⟩ := ih t ht
        cases pieces with
        | nil =>
          refine ⟨[], c :: last, ?_, by simp, ?_⟩
          · simp only [List.map_nil, List.flatten_nil, List.nil_append] at hs' ⊢
            rw [hs']
          · simp only [List.map_nil, List.flatten_nil, List.nil_append] at hs'
            rw [List.infix_cons_iff]
            rintro (h | h)
            · exact hp (hs' ▸ h)
            · exact hl h
        | cons p ps =>
          refine ⟨(c :: p) :: ps, last, ?_, ?_, hl⟩
          · rw [hs']
            simp
          · intro q hq
            rcases List.mem_cons.mp hq with rfl | hq
            · rw [List.cons_append, List.infix_cons_iff]
              rintro (h | h)
              · apply hp
                have hpre : c :: (p ++ r.dropLast) <+: c :: t := by
                  rw [hs']
                  simp only [List.map_cons, List.flatten_cons, List.append_assoc]
                  exact (List.prefix_cons_inj c).mpr (dropLast_isPrefix_append p r _)
                exact h.trans hpre
              · exact hpc p (List.mem_cons_self p ps) h
            · exact hpc q (List.mem_cons_of_mem p hq)

/-- On a text cut into pieces at the occurrences of the literal, `ReplaceAll` puts the
mask in the place of each occurrence and keeps every piece. -/
theorem replaceAll_pieces (r mask : GoString) (hr : r ≠ []) (last : GoString)
    (hl : ¬ r <:+: last) :
    ∀ pieces : List GoString, (∀ p ∈ pieces, ¬ r <:+: p ++ r.dropLast) →
      ReplaceAll ((pieces.map (fun p => p ++ r)).flatten ++ last) r mask
        = (pieces.map (fun p => p ++ mask)).flatten ++ last := by
  intro pieces
  induction pieces with
  | nil =>
    intro _
    have hc : Contains last r = false := by
      cases h : Contains last r with
      | false => rfl
      | true => exact absurd ((contains_iff _ _).mp h) hl
    simpa using replaceAll_of_not_contains last r mask hr hc
  | cons p ps ih =>
    intro hpc
    have h1 := replaceAll_piece r mask hr
      ((ps.map (fun p => p ++ r)).flatten ++ last) p (hpc p (List.mem_cons_self p ps))
    have h2 := ih (fun q hq => hpc q (List.mem_cons_of_mem p hq))
    simp only [List.map_cons, List.flatten_cons, List.append_assoc]
    rw [h1, h2]

/-- `ReplaceAll` is the replacement of every occurrence, and the only one. -/
theorem replacesEvery_iff (r mask s out : GoString) (hr : r ≠ []) :
    ReplacesEvery r mask s out ↔ out = ReplaceAll s r mask := by
  constructor
  · rintro ⟨pieces, last, hs, hout, hpc, hl⟩
    rw [hout, hs, replaceAll_pieces r mask hr last hl pieces hpc]
  · intro hout
    obtain ⟨pieces, last, hs, hpc, hl⟩ := exists_pieces r hr s.length s (le_refl _)
    refine ⟨pieces, last, hs, ?_, hpc, hl⟩
    rw [hout]
    conv_lhs => rw [hs]
    exact replaceAll_pieces r mask hr last hl pieces hpc

end strings

theorem replacesLiterals_iff (mask : GoString) (L : List GoString) (s out : GoString) :
    ReplacesLiterals mask L s out ↔ out = replaceLiteralsSpec mask L s := by
  constructor
  · intro h
    induction h with
    | done s => rfl
    | ignoreEmpty L s out _ ih => simpa [replaceLiteralsSpec] using ih
    | replace r L s mid out hr hmid _ ih =>
      have hm := (strings.replacesEvery_iff r mask s mid hr).mp hmid
      rw [ih, hm]
      simp [replaceLiteralsSpec, hr]
  · intro h
    subst h
    induction L generalizing s with
    | nil => exact ReplacesLiterals.done s
    | cons r L ih =>
      by_cases hr : r = []
      · subst hr
        have := ih s
        simp only [replaceLiteralsSpec, List.foldl_cons, if_true] at this ⊢
        exact ReplacesLiterals.ignoreEmpty L s _ this
      · have := ih (strings.ReplaceAll s r mask)
        simp only [replaceLiteralsSpec, List.foldl_cons, hr, if_false] at this ⊢
        exact ReplacesLiterals.replace r L s _ _ hr
          ((strings.replacesEvery_iff r mask s _ hr).mpr rfl) this

/-- C9: with the kill switch off, `Redact(s)` on a configuration whose only rule is
`RedactString(L...)` is the result of successively replacing, in the order the literals
were given, every occurrence of each non-empty literal by the mask token, empty literals
being ignored, and it is the only such result; so `RedactString("")` leaves every `s`
unchanged, and with the mask `[REDACTED]` the literals `ab`, the empty one and `b` turn
`abb cab` into `[REDACTED][REDACTED] c[REDACTED]`, and the literal `aa` turns `aaa` into
`[REDACTED]a`. -/
theorem redactString_refines_spec (g : Globals) (o : ExecOptions) (L : List GoString)
    (s : GoString) (hk : g.DisableRedact = false) (ho : o.redactFuncs = []) :
    ReplacesLiterals g.RedactMask L s ((RedactString g L o).Redact g s) ∧
      (∀ out : GoString, ReplacesLiterals g.RedactMask L s out →
        out = (RedactString g L o).Redact g s) ∧
      (RedactString g [[]] o).Redact g s = s ∧
      (RedactString ⟨false, DefaultRedactMask⟩ [lit "ab", [], lit "b"] defaults).Redact
          ⟨false, DefaultRedactMask⟩ (lit "abb cab")
        = lit "[REDACTED][REDACTED] c[REDACTED]" ∧
      (RedactString ⟨false, DefaultRedactMask⟩ [lit "aa"] defaults).Redact
          ⟨false, DefaultRedactMask⟩ (lit "aaa") = lit "[REDACTED]a" := by
  have heq : (RedactString g L o).Redact g s = replaceLiteralsSpec g.RedactMask L s := by
    rw [redact_single_rule g o L s hk ho]
    exact foldl_filter_nonempty g.RedactMask L s
  refine ⟨?_, ?_, ?_, by decide, by decide⟩
  · exact (replacesLiterals_iff g.RedactMask L s _).mpr heq
  · intro out hout
    rw [heq]
    exact (replacesLiterals_iff g.RedactMask L s out).mp hout
  · rw [redact_single_rule g o [[]] s hk ho]
    rfl

theorem redactString_refines_spec_witness :
    (Globals.mk false DefaultRedactMask).DisableRedact = false ∧ defaults.redactFuncs = [] ∧
      (ReplacesLiterals (Globals.mk false DefaultRedactMask).RedactMask
          [lit "ab", [], lit "b"] (lit "abb cab")
          ((RedactString ⟨false, DefaultRedactMask⟩ [lit "ab", [], lit "b"] defaults).Redact
            ⟨false, DefaultRedactMask⟩ (lit "abb cab")) ∧
      (∀ out : GoString, ReplacesLiterals (Globals.mk false DefaultRedactMask).RedactMask
          [lit "ab", [], lit "b"] (lit "abb cab") out →
        out = (RedactString ⟨false, DefaultRedactMask⟩ [lit "ab", [], lit "b"] defaults).Redact
          ⟨false, DefaultRedactMask⟩ (lit "abb cab")) ∧
      (RedactString ⟨false, DefaultRedactMask⟩ [[]] defaults).Redact
          ⟨false, DefaultRedactMask⟩ (lit "abb cab") = lit "abb cab" ∧
      (RedactString ⟨false, DefaultRedactMask⟩ [lit "ab", [], lit "b"] defaults).Redact
          ⟨false, DefaultRedactMask⟩ (lit "abb cab")
        = lit "[REDACTED][REDACTED] c[REDACTED]" ∧
      (RedactString ⟨false, DefaultRedactMask⟩ [lit "aa"] defaults).Redact
          ⟨false, DefaultRedactMask⟩ (lit "aaa") = lit "[REDACTED]a") :=
  ⟨rfl, rfl, redactString_refines_spec ⟨false, DefaultRedactMask⟩ defaults
    [lit "ab", [], lit "b"] (lit "abb cab") rfl rfl⟩

/-- C10: when no non-empty element of `L` occurs in `s`, `Redact(s)` returns `s`
unchanged on every configuration whose redaction rules are literal-set rules over
literals of `L`. -/
theorem redact_no_occurrence_identity (g : Globals) (o : ExecOptions) (L : List GoString)
    (s : GoString)
    (hrules : ∀ f ∈ o.redactFuncs,
      ∃ L' : List GoString, L' ⊆ L ∧ f = redactStringFunc g (L'.filter (fun str => str != [])))
    (hfree : ∀ r ∈ L, r ≠ [] → strings.Contains s r = false) :
    o.Redact g s = s := by
  unfold ExecOptions.Redact
  split
  · rfl
  · apply foldl_fixed
    intro f hf
    obtain ⟨L', hsub, rfl⟩ := hrules f hf
    show (L'.filter (fun str => str != [])).foldl
      (fun newstr r => strings.ReplaceAll newstr r g.RedactMask) s = s
    rw [foldl_filter_nonempty]
    exact replaceLiteralsSpec_fixed g.RedactMask L' s (fun r hr => hfree r (hsub hr))

theorem redact_no_occurrence_identity_witness :
    (∀ f ∈ (Build [RedactString ⟨false, DefaultRedactMask⟩ [lit "pw", []],
                   RedactString ⟨false, DefaultRedactMask⟩ [lit "key"]]).redactFuncs,
        ∃ L' : List GoString, L' ⊆ [lit "pw", [], lit "key"] ∧
          f = redactStringFunc ⟨false, DefaultRedactMask⟩ (L'.filter (fun str => str != []))) ∧
      (∀ r ∈ [lit "pw", [], lit "key"], r ≠ [] → strings.Contains (lit "ls -la") r = false) ∧
      (Build [RedactString ⟨false, DefaultRedactMask⟩ [lit "pw", []],
              RedactString ⟨false, DefaultRedactMask⟩ [lit "key"]]).Redact
        ⟨false, DefaultRedactMask⟩ (lit "ls -la") = lit "ls -la" :=
  have hrules : ∀ f ∈ (Build [RedactString ⟨false, DefaultRedactMask⟩ [lit "pw", []],
                   RedactString ⟨false, DefaultRedactMask⟩ [lit "key"]]).redactFuncs,
        ∃ L' : List GoString, L' ⊆ [lit "pw", [], lit "key"] ∧
          f = redactStringFunc ⟨false, DefaultRedactMask⟩
            (L'.filter (fun str => str != [])) := by
    intro f hf
    simp only [Build, ExecOptions.Apply, RedactString, defaults, List.foldl_cons,
      List.foldl_nil, List.nil_append, List.cons_append, List.mem_cons,
      List.mem_singleton, List.not_mem_nil, or_false] at hf
    rcases hf with rfl | rfl
    · exact ⟨[lit "pw", []], by simp, rfl⟩
    · exact ⟨[lit "key"], by simp, rfl⟩
  ⟨hrules, by decide,
    redact_no_occurrence_identity ⟨false, DefaultRedactMask⟩ _ [lit "pw", [], lit "key"]
      (lit "ls -la") hrules (by decide)⟩

/-! ## Command-text logging -/

/-- C3: on `Build(RedactString("secret123"))` with the kill switch off and the mask
`[REDACTED]`, `LogCmd("run --token secret123")` makes exactly one logger call, at debug
severity, whose text is the word executing followed by the quoted redacted command
`run --token [REDACTED]`; the text contains `[REDACTED]` and does not contain
`secret123`. -/
theorem logCmd_redacts_secret (g : Globals) (hk : g.DisableRedact = false)
    (hm : g.RedactMask = DefaultRedactMask) :
    (Build [RedactString g [lit "secret123"]]).LogCmd g (lit "run --token secret123")
        = some [⟨.debug, lit "executing \x60run --token [REDACTED]\x60"⟩] ∧
      strings.Contains (lit "executing \x60run --token [REDACTED]\x60") (lit "[REDACTED]") = true ∧
      strings.Contains (lit "executing \x60run --token [REDACTED]\x60") (lit "secret123") = false := by
  obtain ⟨d, m⟩ := g
  simp only at hk hm
  subst hk hm
  decide

theorem logCmd_redacts_secret_witness :
    (Globals.mk false DefaultRedactMask).DisableRedact = false ∧
      (Globals.mk false DefaultRedactMask).RedactMask = DefaultRedactMask ∧
      ((Build [RedactString ⟨false, DefaultRedactMask⟩ [lit "secret123"]]).LogCmd
          ⟨false, DefaultRedactMask⟩ (lit "run --token secret123")
        = some [⟨.debug, lit "executing \x60run --token [REDACTED]\x60"⟩] ∧
      strings.Contains (lit "executing \x60run --token [REDACTED]\x60") (lit "[REDACTED]") = true ∧
      strings.Contains (lit "executing \x60run --token [REDACTED]\x60") (lit "secret123") = false) :=
  ⟨rfl, rfl, logCmd_redacts_secret ⟨false, DefaultRedactMask⟩ rfl rfl⟩

/-- C4: when command-text logging is disabled (`logCommand` false, which `HideCommand`
establishes after any options), `LogCmd(cmd)` makes exactly one logger call, the fixed
debug record `executing command`, for every `cmd`; so any two command strings give
identical log records. -/
theorem logCmd_hidden_is_constant (g : Globals) (o : ExecOptions) (h : o.logCommand = false) :
    (∀ cmd : GoString, o.LogCmd g cmd = some [⟨.debug, lit "executing command"⟩]) ∧
      (∀ cmd₁ cmd₂ : GoString, o.LogCmd g cmd₁ = o.LogCmd g cmd₂) ∧
      (∀ (xs : List ExecOption) (o' : ExecOptions),
        (o'.Apply (xs ++ [HideCommand])).logCommand = false) := by
  have h1 : ∀ cmd : GoString, o.LogCmd g cmd = some [⟨.debug, lit "executing command"⟩] := by
    intro cmd
    simp [ExecOptions.LogCmd, h]
  refine ⟨h1, fun c₁ c₂ => by rw [h1 c₁, h1 c₂], ?_⟩
  intro xs o'
  simp [ExecOptions.Apply, List.foldl_append, HideCommand]

theorem logCmd_hidden_is_constant_witness :
    (Build [HideCommand]).logCommand = false ∧
      ((∀ cmd : GoString, (Build [HideCommand]).LogCmd ⟨false, DefaultRedactMask⟩ cmd
          = some [⟨.debug, lit "executing command"⟩]) ∧
      (∀ cmd₁ cmd₂ : GoString, (Build [HideCommand]).LogCmd ⟨false, DefaultRedactMask⟩ cmd₁
          = (Build [HideCommand]).LogCmd ⟨false, DefaultRedactMask⟩ cmd₂) ∧
      (∀ (xs : List ExecOption) (o' : ExecOptions),
        (o'.Apply (xs ++ [HideCommand])).logCommand = false)) :=
  ⟨rfl, logCmd_hidden_is_constant ⟨false, DefaultRedactMask⟩ (Build [HideCommand]) rfl⟩

/-! ## Endpoints -/

theorem fileOption_wroteErr (g : Globals) (opt : ExecOption) (h : FileOption g opt)
    (o : ExecOptions) : (opt o).wroteErr = o.wroteErr := by
  cases h <;> rfl

theorem apply_wroteErr (g : Globals) (opts : List ExecOption)
    (h : ∀ opt ∈ opts, FileOption g opt) (o : ExecOptions) :
    (o.Apply opts).wroteErr = o.wroteErr := by
  induction opts generalizing o with
  | nil => rfl
  | cons opt opts ih =>
    have h1 := ih (fun x hx => h x (List.mem_cons_of_mem opt hx)) (opt o)
    have h2 := fileOption_wroteErr g opt (h opt (List.mem_cons_self opt opts)) o
    simp only [ExecOptions.Apply, List.foldl_cons] at h1 ⊢
    rw [h1, h2]

theorem callerWrite_opts (sink : Sink) (w : CallerWriter) (st : Proc) (p : GoString) :
    (callerWrite sink w st p).1.opts = st.opts := by
  cases sink <;> rfl

theorem stderr_write_wroteErr (g : Globals) (o : ExecOptions) (st : Proc) (p : GoString) :
    (multiWrite g o.Stderr st p).1.opts.wroteErr
      = (st.opts.wroteErr || decide (p.length > 0)) := by
  have hflag : ∀ st' : Proc, (flaggingWriterWrite st' p).1.opts.wroteErr
      = (st'.opts.wroteErr || decide (p.length > 0)) := by
    intro st'
    cases hw : st'.opts.wroteErr <;> cases hp : decide (p.length > 0) <;>
      simp [flaggingWriterWrite, hw, hp]
  have htail : ∀ st' : Proc, (multiWrite g
      (Writer.flaggingWriter :: (match o.errOut with
        | some w => [Writer.caller .errOut w]
        | none => [])) st' p).1.opts.wroteErr
      = (st'.opts.wroteErr || decide (p.length > 0)) := by
    intro st'
    cases o.errOut with
    | none => simpa [multiWrite, Writer.Write, flaggingWriterWrite] using hflag st'
    | some w =>
      have hc := callerWrite_opts .errOut w (flaggingWriterWrite st' p).1 p
      simp only [multiWrite, Writer.Write]
      have hn : (flaggingWriterWrite st' p).2 = (p.length, none) := rfl
      rcases hf : flaggingWriterWrite st' p with ⟨st1, n1, e1⟩
      rw [hf] at hn hc
      simp only [Prod.mk.injEq] at hn
      obtain ⟨rfl, rfl⟩ := hn
      have hst1 : st1.opts.wroteErr = (st'.opts.wroteErr || decide (p.length > 0)) := by
        have := hflag st'
        rwa [hf] at this
      simp only [ne_eq, not_true_eq_false, if_false]
      rcases hcw : callerWrite Sink.errOut w st1 p with ⟨st2, n2, e2⟩
      rw [hcw] at hc
      simp only at hc
      cases e2 with
      | some e => simp only [hc, hst1]
      | none =>
        simp only
        split <;> simp only [hc, hst1]
  have hshape : o.Stderr = (if o.streamOutput then [Writer.redactingWriter (.logWriter .error)]
        else if o.logError then [Writer.redactingWriter (.logWriter .debug)] else [])
      ++ (Writer.flaggingWriter :: (match o.errOut with
        | some w => [Writer.caller .errOut w]
        | none => [])) := by
    unfold ExecOptions.Stderr
    cases o.errOut <;> simp
  rw [hshape]
  by_cases hs : o.streamOutput = true
  · simp only [hs, if_true, List.singleton_append]
    simp only [multiWrite, Writer.Write, redactingWriterWrite, logWriterWrite, ne_eq,
      not_true_eq_false, if_false]
    exact htail _
  · by_cases hl : o.logError = true
    · simp only [hs, hl, if_true, if_false, List.singleton_append]
      simp only [multiWrite, Writer.Write, redactingWriterWrite, logWriterWrite, ne_eq,
        not_true_eq_false, if_false]
      exact htail _
    · simp only [hs, hl, if_false, List.nil_append]
      exact htail _

theorem writeAll_wroteErr (g : Globals) (o : ExecOptions) (ps : List GoString) (st : Proc) :
    (writeAll g o.Stderr st ps).opts.wroteErr
      = (st.opts.wroteErr || ps.any (fun p => decide (p.length > 0))) := by
  induction ps generalizing st with
  | nil => simp [writeAll]
  | cons p ps ih =>
    have h := ih (multiWrite g o.Stderr st p).1
    simp only [writeAll, List.foldl_cons] at h ⊢
    rw [h, stderr_write_wroteErr, List.any_cons, Bool.or_assoc]

/-- C5: for every configuration built from the options of this file (any logging flags,
with or without a caller error sink, also one whose writes fail) and every sequence of
writes to the `Stderr()` endpoint, `WroteErr()` is false before any write and afterwards
true exactly when some write of the sequence was non-empty; further writes, empty or
not, never reset it. -/
theorem wroteErr_iff_nonempty_write (g : Globals) (opts : List ExecOption)
    (hopts : ∀ opt ∈ opts, FileOption g opt) (ps : List GoString) :
    (Build opts).WroteErr = false ∧
      (writeAll g (Build opts).Stderr (Proc.start (Build opts)) ps).opts.WroteErr
        = ps.any (fun p => decide (p.length > 0)) ∧
      (∀ qs : List GoString,
        (writeAll g (Build opts).Stderr (Proc.start (Build opts)) ps).opts.WroteErr = true →
        (writeAll g (Build opts).Stderr (Proc.start (Build opts)) (ps ++ qs)).opts.WroteErr
          = true) := by
  have h0 : (Build opts).wroteErr = false := by
    unfold Build
    rw [apply_wroteErr g opts hopts]
    rfl
  have h1 : ∀ rs : List GoString,
      (writeAll g (Build opts).Stderr (Proc.start (Build opts)) rs).opts.WroteErr
        = rs.any (fun p => decide (p.length > 0)) := by
    intro rs
    unfold ExecOptions.WroteErr
    rw [writeAll_wroteErr]
    simp [Proc.start, h0]
  refine ⟨h0, h1 ps, ?_⟩
  intro qs hps
  rw [h1] at hps
  rw [h1, List.any_append, hps, Bool.true_or]

theorem wroteErr_iff_nonempty_write_witness :
    (∀ opt ∈ [Stderr ⟨fun _ _ => (0, some (GoError.other 1))⟩, HideOutput],
        FileOption ⟨false, DefaultRedactMask⟩ opt) ∧
      ((Build [Stderr ⟨fun _ _ => (0, some (GoError.other 1))⟩, HideOutput]).WroteErr = false ∧
      (writeAll ⟨false, DefaultRedactMask⟩
          (Build [Stderr ⟨fun _ _ => (0, some (GoError.other 1))⟩, HideOutput]).Stderr
          (Proc.start (Build [Stderr ⟨fun _ _ => (0, some (GoError.other 1))⟩, HideOutput]))
          [[], lit "x", []]).opts.WroteErr
        = [[], lit "x", []].any (fun p => decide (p.length > 0)) ∧
      (∀ qs : List GoString,
        (writeAll ⟨false, DefaultRedactMask⟩
          (Build [Stderr ⟨fun _ _ => (0, some (GoError.other 1))⟩, HideOutput]).Stderr
          (Proc.start (Build [Stderr ⟨fun _ _ => (0, some (GoError.other 1))⟩, HideOutput]))
          [[], lit "x", []]).opts.WroteErr = true →
        (writeAll ⟨false, DefaultRedactMask⟩
          (Build [Stderr ⟨fun _ _ => (0, some (GoError.other 1))⟩, HideOutput]).Stderr
          (Proc.start (Build [Stderr ⟨fun _ _ => (0, some (GoError.other 1))⟩, HideOutput]))
          ([[], lit "x", []] ++ qs)).opts.WroteErr = true)) :=
  have hopts : ∀ opt ∈ [Stderr ⟨fun _ _ => (0, some (GoError.other 1))⟩, HideOutput],
      FileOption ⟨false, DefaultRedactMask⟩ opt := by
    intro opt h
    simp only [List.mem_cons, List.mem_singleton, List.not_mem_nil, or_false] at h
    rcases h with rfl | rfl
    · exact FileOption.stderr _
    · exact FileOption.hideOutput
  ⟨hopts, wroteErr_iff_nonempty_write ⟨false, DefaultRedactMask⟩ _ hopts [[], lit "x", []]⟩

/-- C6: for every configuration with a caller-supplied output sink that accepts full
writes and every byte slice `b`, one write of `b` to the `Stdout()` endpoint hands exactly
`b` to the caller sink, hands `Redact(string(b))` to the log tap when one is active (info
severity when streaming, else debug severity when output logging is on, else no logger
call), and returns the byte count `len(b)` and no error. -/
theorem stdout_write_fans_out (g : Globals) (st : Proc) (w : CallerWriter) (b : GoString)
    (hout : st.opts.out = some w) (hw : w.AcceptsAll) :
    (multiWrite g st.opts.Stdout st b).2 = (b.length, none) ∧
      (multiWrite g st.opts.Stdout st b).1.outWritten = st.outWritten ++ [b] ∧
      (multiWrite g st.opts.Stdout st b).1.log = st.log ++
        (if st.opts.streamOutput then [⟨.info, st.opts.Redact g b⟩]
         else if st.opts.logOutput then [⟨.debug, st.opts.Redact g b⟩]
         else []) := by
  have hw' : ∀ (hist : List GoString) (p : GoString), w.reply hist p = (p.length, none) := hw
  have hcaller : ∀ st' : Proc, multiWrite g [Writer.caller .out w] st' b
      = ({ st' with outWritten := st'.outWritten ++ [b] }, b.length, none) := by
    intro st'
    simp [multiWrite, Writer.Write, callerWrite, hw']
  unfold ExecOptions.Stdout
  rw [hout]
  by_cases hs : st.opts.streamOutput = true
  · simp only [hs, if_true, List.singleton_append, multiWrite, Writer.Write,
      redactingWriterWrite, logWriterWrite, ne_eq, not_true_eq_false, if_false]
    simp [callerWrite, hw']
  · by_cases hl : st.opts.logOutput = true
    · simp only [hs, hl, if_true, if_false, List.singleton_append, multiWrite, Writer.Write,
        redactingWriterWrite, logWriterWrite, ne_eq, not_true_eq_false]
      simp [callerWrite, hw']
    · simp only [hs, hl, Bool.false_eq_true, if_false, List.nil_append, List.append_nil]
      rw [hcaller st]
      exact ⟨rfl, rfl, rfl⟩

theorem stdout_write_fans_out_witness :
    (Proc.start (Build [Stdout ⟨fun _ p => (p.length, none)⟩,
        RedactString ⟨false, DefaultRedactMask⟩ [lit "pw"]])).opts.out
        = some ⟨fun _ p => (p.length, none)⟩ ∧
      CallerWriter.AcceptsAll ⟨fun _ p => (p.length, none)⟩ ∧
      ((multiWrite ⟨false, DefaultRedactMask⟩
          (Build [Stdout ⟨fun _ p => (p.length, none)⟩,
            RedactString ⟨false, DefaultRedactMask⟩ [lit "pw"]]).Stdout
          (Proc.start (Build [Stdout ⟨fun _ p => (p.length, none)⟩,
            RedactString ⟨false, DefaultRedactMask⟩ [lit "pw"]])) (lit "my pw")).2
        = ((lit "my pw").length, none) ∧
      (multiWrite ⟨false, DefaultRedactMask⟩
          (Build [Stdout ⟨fun _ p => (p.length, none)⟩,
            RedactString ⟨false, DefaultRedactMask⟩ [lit "pw"]]).Stdout
          (Proc.start (Build [Stdout ⟨fun _ p => (p.length, none)⟩,
            RedactString ⟨false, DefaultRedactMask⟩ [lit "pw"]])) (lit "my pw")).1.outWritten
        = [] ++ [lit "my pw"] ∧
      (multiWrite ⟨false, DefaultRedactMask⟩
          (Build [Stdout ⟨fun _ p => (p.length, none)⟩,
            RedactString ⟨false, DefaultRedactMask⟩ [lit "pw"]]).Stdout
          (Proc.start (Build [Stdout ⟨fun _ p => (p.length, none)⟩,
            RedactString ⟨false, DefaultRedactMask⟩ [lit "pw"]])) (lit "my pw")).1.log
        = [] ++ [⟨.debug, lit "my [REDACTED]"⟩]) :=
  ⟨rfl, fun _ _ => rfl,
    stdout_write_fans_out ⟨false, DefaultRedactMask⟩
      (Proc.start (Build [Stdout ⟨fun _ p => (p.length, none)⟩,
        RedactString ⟨false, DefaultRedactMask⟩ [lit "pw"]]))
      ⟨fun _ p => (p.length, none)⟩ (lit "my pw") rfl (fun _ _ => rfl)⟩

/-- C7, evaluated on the code: after `Sensitive()` the flag `logOutput` is still on (and
`logInput` keeps the value an earlier `LogInput(true)` gave it), so that outside
streaming mode a write of `secret` to the `Stdout()` endpoint of `Build(Sensitive())`
makes a debug logger call with that text. -/
theorem sensitive_keeps_output_logging :
    (Build [Sensitive]).logOutput = true ∧
      (Build [LogInput true, Sensitive]).logInput = true ∧
      (Build [Sensitive]).streamOutput = false ∧
      (multiWrite ⟨false, DefaultRedactMask⟩ (Build [Sensitive]).Stdout
          (Proc.start (Build [Sensitive])) (lit "secret")).1.log
        = [⟨.debug, lit "secret"⟩] := by
  decide

/-- C8, evaluated on the code: after `Stdin(r)`, `LogInput(true)`, `HideCommand()` input
logging is still on and `Stdin()` returns the duplicating reader that logs what is
read, not the raw source. -/
theorem hideCommand_keeps_input_logging :
    (Build [Stdin (.bytesBuffer (lit "hunter2")), LogInput true, HideCommand]).logInput = true ∧
      (Build [Stdin (.bytesBuffer (lit "hunter2")), LogInput true, HideCommand]).Stdin.1.map
          StdinReader.isTee = some true := by
  decide

/-! ## Trimming -/

namespace strings

theorem stripLeading_fuel (encs : List GoString) (hne : ∀ e ∈ encs, e ≠ []) :
    ∀ (n : Nat) (s : GoString), s.length ≤ n →
      stripLeading encs n s = stripLeading encs s.length s := by
  intro n
  induction n using Nat.strong_induction_on with
  | _ n ih =>
    intro s hs
    cases n with
    | zero =>
      have : s = [] := List.length_eq_zero.mp (by omega)
      subst this
      rfl
    | succ m =>
      cases hlen : s.length with
      | zero =>
        have hs0 : s = [] := List.length_eq_zero.mp hlen
        subst hs0
        simp only [stripLeading]
        cases hf : encs.find? (fun e => e.isPrefixOf ([] : GoString)) with
        | none => rfl
        | some e =>
          have hmem := List.mem_of_find?_eq_some hf
          have hp := List.find?_some hf
          have : e = [] := by simpa using hp
          exact absurd this (hne e hmem)
      | succ k =>
        simp only [stripLeading]
        cases hf : encs.find? (fun e => e.isPrefixOf s) with
        | none => rfl
        | some e =>
          have hmem := List.mem_of_find?_eq_some hf
          have hpos : 0 < e.length := List.length_pos.mpr (hne e hmem)
          have hd : (s.drop e.length).length ≤ k := by
            simp only [List.length_drop]; omega
          simp only
          rw [ih m (by omega) _ (by omega), ih k (by omega) _ hd]

theorem stripLeading_of_find_none (encs : List GoString) (s : GoString)
    (hf : encs.find? (fun e => e.isPrefixOf s) = none) :
    stripLeading encs s.length s = s := by
  cases hlen : s.length with
  | zero => rfl
  | succ k => simp only [stripLeading, hf]

theorem stripLeading_of_find_some (encs : List GoString) (hne : ∀ e ∈ encs, e ≠ [])
    (s e : GoString) (hf : encs.find? (fun e => e.isPrefixOf s) = some e) :
    stripLeading encs s.length s
      = stripLeading encs (s.drop e.length).length (s.drop e.length) := by
  have hmem := List.mem_of_find?_eq_some hf
  have hpos : 0 < e.length := List.length_pos.mpr (hne e hmem)
  have hp0 := List.find?_some hf
  have hp : e <+: s := List.isPrefixOf_iff_prefix.mp hp0
  have hle : e.length ≤ s.length := hp.length_le
  cases hlen : s.length with
  | zero => omega
  | succ k =>
    have hd : (s.drop e.length).length ≤ k := by
      simp only [List.length_drop]; omega
    simp only [stripLeading, hf]
    exact stripLeading_fuel encs hne k _ hd

/-- What `stripLeading` removes is a concatenation of the given sequences, and what it
leaves begins with none of them. -/
theorem stripLeading_spec (encs : List GoString) (hne : ∀ e ∈ encs, e ≠ []) :
    ∀ (n : Nat) (s : GoString), s.length ≤ n →
      (∃ es : List GoString, (∀ e ∈ es, e ∈ encs) ∧
          s = es.flatten ++ stripLeading encs s.length s) ∧
        (∀ e ∈ encs, ¬ e <+: stripLeading encs s.length s) := by
  intro n
  induction n with
  | zero =>
    intro s hs
    have : s = [] := List.length_eq_zero.mp (by omega)
    subst this
    refine ⟨⟨[], by simp, rfl⟩, ?_⟩
    intro e he hpre
    have : e = [] := List.prefix_nil.mp hpre
    exact hne e he this
  | succ n ih =>
    intro s hs
    cases hf : encs.find? (fun e => e.isPrefixOf s) with
    | none =>
      rw [stripLeading_of_find_none encs s hf]
      refine ⟨⟨[], by simp, rfl⟩, ?_⟩
      intro e he hpre
      have := List.find?_eq_none.mp hf e he
      exact this (List.isPrefixOf_iff_prefix.mpr hpre)
    | some e =>
      have hmem := List.mem_of_find?_eq_some hf
      have hpos : 0 < e.length := List.length_pos.mpr (hne e hmem)
      have hp0 := List.find?_some hf
      have hp : e <+: s := List.isPrefixOf_iff_prefix.mp hp0
      have hle : e.length ≤ s.length := hp.length_le
      have hd : (s.drop e.length).length ≤ n := by
        simp only [List.length_drop]; omega
      rw [stripLeading_of_find_some encs hne s e hf]
      obtain ⟨⟨es, hes, heq⟩, hno⟩ := ih (s.drop e.length) hd
      refine ⟨⟨e :: es, ?_, ?_⟩, hno⟩
      · intro x hx
        rcases List.mem_cons.mp hx with rfl | hx
        · exact hmem
        · exact hes x hx
      · obtain ⟨t, rfl⟩ := hp
        have hdrop : (e ++ t).drop e.length = t := List.drop_left' rfl
        rw [hdrop] at heq ⊢
        rw [List.flatten_cons, List.append_assoc, ← heq]

theorem stripLeading_fixed (encs : List GoString) (s : GoString)
    (h : ∀ e ∈ encs, ¬ e <+: s) : stripLeading encs s.length s = s := by
  apply stripLeading_of_find_none
  rw [List.find?_eq_none]
  intro e he hp
  exact h e he (List.isPrefixOf_iff_prefix.mp hp)

theorem spaceEncodings_ne_nil : ∀ e ∈ unicode.spaceEncodings, e ≠ [] := by decide

theorem spaceEncodings_reverse_ne_nil :
    ∀ e ∈ unicode.spaceEncodings.map List.reverse, e ≠ [] := by decide

theorem trimLeftSpace_spec (s : GoString) :
    (∃ pre : GoString, unicode.AllSpace pre ∧ s = pre ++ TrimLeftSpace s) ∧
      (∀ e ∈ unicode.spaceEncodings, ¬ e <+: TrimLeftSpace s) := by
  obtain ⟨⟨es, hes, heq⟩, hno⟩ :=
    stripLeading_spec unicode.spaceEncodings spaceEncodings_ne_nil s.length s (le_refl _)
  exact ⟨⟨es.flatten, ⟨es, hes, rfl⟩, heq⟩, hno⟩

theorem reverse_flatten_eq (es : List GoString) :
    es.flatten.reverse = (es.reverse.map List.reverse).flatten := by
  induction es with
  | nil => rfl
  | cons e es ih =>
    simp only [List.flatten_cons, List.reverse_append, ih, List.reverse_cons, List.map_append,
      List.map_cons, List.map_nil, List.flatten_append, List.flatten_nil, List.append_nil]

theorem trimRightSpace_spec (s : GoString) :
    (∃ post : GoString, unicode.AllSpace post ∧ s = TrimRightSpace s ++ post) ∧
      (∀ e ∈ unicode.spaceEncodings, ¬ e <:+ TrimRightSpace s) := by
  obtain ⟨⟨es, hes, heq⟩, hno⟩ :=
    stripLeading_spec (unicode.spaceEncodings.map List.reverse) spaceEncodings_reverse_ne_nil
      s.reverse.length s.reverse (le_refl _)
  have hlen : s.reverse.length = s.length := List.length_reverse s
  rw [hlen] at heq hno
  constructor
  · refine ⟨es.flatten.reverse, ⟨es.reverse.map List.reverse, ?_, reverse_flatten_eq es⟩, ?_⟩
    · intro e he
      obtain ⟨x, hx, rfl⟩ := List.mem_map.mp he
      obtain ⟨y, hy, rfl⟩ := List.mem_map.mp (hes x (List.mem_reverse.mp hx))
      rw [List.reverse_reverse]
      exact hy
    · have := congrArg List.reverse heq
      rw [List.reverse_reverse, List.reverse_append] at this
      exact this
  · intro e he hsuf
    apply hno e.reverse (List.mem_map.mpr ⟨e, he, rfl⟩)
    have := List.reverse_prefix.mpr hsuf
    unfold TrimRightSpace at this
    rwa [List.reverse_reverse] at this

theorem trimRightSpace_fixed (s : GoString)
    (h : ∀ e ∈ unicode.spaceEncodings, ¬ e <:+ s) : TrimRightSpace s = s := by
  unfold TrimRightSpace
  have hlen : s.length = s.reverse.length := (List.length_reverse s).symm
  rw [hlen, stripLeading_fixed, List.reverse_reverse]
  intro e he hp
  obtain ⟨x, hx, rfl⟩ := List.mem_map.mp he
  exact h x hx (List.reverse_prefix.mp hp)

theorem trimLeftSpace_fixed (s : GoString)
    (h : ∀ e ∈ unicode.spaceEncodings, ¬ e <+: s) : TrimLeftSpace s = s :=
  stripLeading_fixed unicode.spaceEncodings s h

/-- What `TrimSpace` removes is white space only, what it leaves neither begins nor ends
with white space, and trimming twice is trimming once. -/
theorem trimSpace_spec (s : GoString) :
    (∃ pre post : GoString, unicode.AllSpace pre ∧ unicode.AllSpace post ∧
        s = pre ++ TrimSpace s ++ post) ∧
      (∀ e ∈ unicode.spaceEncodings, ¬ e <+: TrimSpace s ∧ ¬ e <:+ TrimSpace s) ∧
      TrimSpace (TrimSpace s) = TrimSpace s := by
  obtain ⟨⟨pre, hpre, hl⟩, hnol⟩ := trimLeftSpace_spec s
  obtain ⟨⟨post, hpost, hr⟩, hnor⟩ := trimRightSpace_spec (TrimLeftSpace s)
  have hno : ∀ e ∈ unicode.spaceEncodings, ¬ e <+: TrimSpace s ∧ ¬ e <:+ TrimSpace s := by
    intro e he
    refine ⟨?_, hnor e he⟩
    intro hp
    apply hnol e he
    rw [hr]
    exact hp.trans (List.prefix_append _ _)
  refine ⟨⟨pre, post, hpre, hpost, ?_⟩, hno, ?_⟩
  · unfold TrimSpace
    rw [List.append_assoc, ← hr, ← hl]
  · have h1 : TrimLeftSpace (TrimSpace s) = TrimSpace s :=
      trimLeftSpace_fixed _ (fun e he => (hno e he).1)
    have h2 : TrimRightSpace (TrimSpace s) = TrimSpace s :=
      trimRightSpace_fixed _ (fun e he => (hno e he).2)
    show TrimRightSpace (TrimLeftSpace (TrimSpace s)) = TrimSpace s
    rw [h1, h2]

end strings

/-- C14: with trimming disabled `FormatOutput(s)` is `s`; with trimming enabled it is
`s` without its leading and trailing white space: what is removed before and after is
white space only, and the result neither begins nor ends with white space; so
`FormatOutput("  x  ")` is `x` when trimming is enabled (the default) and `  x  ` after
`TrimOutput(false)`; in both modes `FormatOutput` is idempotent. -/
theorem formatOutput_trims (o : ExecOptions) (s : GoString) :
    (o.FormatOutput s = if o.trimOutput then strings.TrimSpace s else s) ∧
      (∃ pre post : GoString, unicode.AllSpace pre ∧ unicode.AllSpace post ∧
        s = pre ++ strings.TrimSpace s ++ post) ∧
      (∀ e ∈ unicode.spaceEncodings,
        ¬ e <+: strings.TrimSpace s ∧ ¬ e <:+ strings.TrimSpace s) ∧
      o.FormatOutput (o.FormatOutput s) = o.FormatOutput s ∧
      (Build []).FormatOutput (lit "  x  ") = lit "x" ∧
      (Build [TrimOutput false]).FormatOutput (lit "  x  ") = lit "  x  " := by
  obtain ⟨h1, h2, h3⟩ := strings.trimSpace_spec s
  refine ⟨rfl, h1, h2, ?_, by decide, by decide⟩
  unfold ExecOptions.FormatOutput
  cases o.trimOutput with
  | false => rfl
  | true => simpa using h3

/-! ## Order of rules, decorators and options -/

/-- C11: with the kill switch off, `Redact(s)` is the left fold of `s` through the
registered rules in registration order: for rules `r1` then `r2` it is `r2(r1(s))`, with
no rules it is `s`; and the order matters: the literal rules for `ab` and for `b`,
applied to `ab`, give `[REDACTED]` in one order and `a[REDACTED]` in the other. -/
theorem redact_folds_in_order (g : Globals) (hk : g.DisableRedact = false) :
    (∀ (o : ExecOptions) (s : GoString),
        o.Redact g s = o.redactFuncs.foldl (fun s fn => fn s) s) ∧
      (∀ (r1 r2 : GoString → GoString) (s : GoString),
        (Build [Redact g (fun s _ => r1 s), Redact g (fun s _ => r2 s)]).Redact g s
          = r2 (r1 s)) ∧
      (∀ s : GoString, (Build []).Redact g s = s) ∧
      (Build [RedactString ⟨false, DefaultRedactMask⟩ [lit "ab"],
              RedactString ⟨false, DefaultRedactMask⟩ [lit "b"]]).Redact
          ⟨false, DefaultRedactMask⟩ (lit "ab") = lit "[REDACTED]" ∧
      (Build [RedactString ⟨false, DefaultRedactMask⟩ [lit "b"],
              RedactString ⟨false, DefaultRedactMask⟩ [lit "ab"]]).Redact
          ⟨false, DefaultRedactMask⟩ (lit "ab") = lit "a[REDACTED]" ∧
      lit "[REDACTED]" ≠ lit "a[REDACTED]" := by
  refine ⟨?_, ?_, ?_, by decide, by decide, by decide⟩
  · intro o s
    unfold ExecOptions.Redact
    rw [hk]
    cases hfs : o.redactFuncs with
    | nil => rfl
    | cons f fs => rfl
  · intro r1 r2 s
    simp [ExecOptions.Redact, hk, Build, ExecOptions.Apply, Redact, defaults]
  · intro s
    simp [ExecOptions.Redact, Build, ExecOptions.Apply, defaults]

theorem redact_folds_in_order_witness :
    (Globals.mk false DefaultRedactMask).DisableRedact = false ∧
      ((∀ (o : ExecOptions) (s : GoString),
        o.Redact ⟨false, DefaultRedactMask⟩ s = o.redactFuncs.foldl (fun s fn => fn s) s) ∧
      (∀ (r1 r2 : GoString → GoString) (s : GoString),
        (Build [Redact ⟨false, DefaultRedactMask⟩ (fun s _ => r1 s),
                Redact ⟨false, DefaultRedactMask⟩ (fun s _ => r2 s)]).Redact
            ⟨false, DefaultRedactMask⟩ s
          = r2 (r1 s)) ∧
      (∀ s : GoString, (Build []).Redact ⟨false, DefaultRedactMask⟩ s = s) ∧
      (Build [RedactString ⟨false, DefaultRedactMask⟩ [lit "ab"],
              RedactString ⟨false, DefaultRedactMask⟩ [lit "b"]]).Redact
          ⟨false, DefaultRedactMask⟩ (lit "ab") = lit "[REDACTED]" ∧
      (Build [RedactString ⟨false, DefaultRedactMask⟩ [lit "b"],
              RedactString ⟨false, DefaultRedactMask⟩ [lit "ab"]]).Redact
          ⟨false, DefaultRedactMask⟩ (lit "ab") = lit "a[REDACTED]" ∧
      lit "[REDACTED]" ≠ lit "a[REDACTED]") :=
  ⟨rfl, redact_folds_in_order ⟨false, DefaultRedactMask⟩ rfl⟩

/-- C12: for all decorators `d1`, `d2` and every command text, `Command(cmd)` on
`Build(Decorate(d1), Decorate(d2))` is `d2(d1(cmd))`, the same as on
`Build(Decorate(d2 ∘ d1))`; with no decorators registered `Command(cmd)` is `cmd`. -/
theorem command_composes_decorators (d1 d2 : DecorateFunc) (cmd : GoString) :
    (Build [Decorate d1, Decorate d2]).Command cmd = d2 (d1 cmd) ∧
      (Build [Decorate d1, Decorate d2]).Command cmd
        = (Build [Decorate (d2 ∘ d1)]).Command cmd ∧
      (Build []).Command cmd = cmd :=
  ⟨rfl, rfl, rfl⟩

theorem apply_append (o : ExecOptions) (xs ys : List ExecOption) :
    o.Apply (xs ++ ys) = (o.Apply xs).Apply ys := by
  simp [ExecOptions.Apply, List.foldl_append]

theorem fileOption_logOutput (g : Globals) (opt : ExecOption) (h : FileOption g opt)
    (o : ExecOptions) (ho : o.logOutput = false) : (opt o).logOutput = false := by
  cases h <;> first | exact ho | rfl

theorem fileOption_logError (g : Globals) (opt : ExecOption) (h : FileOption g opt)
    (hne : opt ≠ LogError true) (o : ExecOptions) (ho : o.logError = false) :
    (opt o).logError = false := by
  cases h with
  | logError v =>
    cases v with
    | false => rfl
    | true => exact absurd rfl hne
  | hideOutput => rfl
  | sensitive => rfl
  | allowWinStderr => exact ho
  | stdin r => exact ho
  | stdinString s => exact ho
  | stdout w => exact ho
  | stderr w => exact ho
  | streamOutput => exact ho
  | hideCommand => exact ho
  | redact re => exact ho
  | redactString s => exact ho
  | logInput v => exact ho
  | trimOutput v => exact ho
  | decorate d => exact ho

theorem apply_keeps_output_flags_off (g : Globals) (ys : List ExecOption)
    (hys : ∀ opt ∈ ys, FileOption g opt) (hno : LogError true ∉ ys) (o : ExecOptions)
    (he : o.logError = false) (ho : o.logOutput = false) :
    (o.Apply ys).logError = false ∧ (o.Apply ys).logOutput = false := by
  induction ys generalizing o with
  | nil => exact ⟨he, ho⟩
  | cons opt ys ih =>
    have hopt := hys opt (List.mem_cons_self opt ys)
    have hne : opt ≠ LogError true := fun h => hno (h ▸ List.mem_cons_self opt ys)
    exact ih (fun x hx => hys x (List.mem_cons_of_mem opt hx))
      (fun h => hno (List.mem_cons_of_mem opt h)) (opt o)
      (fileOption_logError g opt hopt hne o he) (fileOption_logOutput g opt hopt o ho)

/-- C13: for every option sequence, after `HideOutput()` error-debug logging (`logError`)
and output logging (`logOutput`) are off, also when `LogError(true)` was applied earlier
in the sequence; after further options of this file `logError` is on again only if one
of them is `LogError(true)`, which does re-enable it. -/
theorem hideOutput_turns_error_logging_off (g : Globals) (o : ExecOptions)
    (xs ys : List ExecOption) (hys : ∀ opt ∈ ys, FileOption g opt)
    (hno : LogError true ∉ ys) :
    (o.Apply (xs ++ [HideOutput])).logError = false ∧
      (o.Apply (xs ++ [HideOutput])).logOutput = false ∧
      (Build [LogError true, HideOutput]).logError = false ∧
      (o.Apply (xs ++ [HideOutput] ++ ys)).logError = false ∧
      (o.Apply (xs ++ [HideOutput] ++ ys)).logOutput = false ∧
      (Build [HideOutput, LogError true]).logError = true := by
  have h1 : (o.Apply (xs ++ [HideOutput])).logError = false := by
    simp [ExecOptions.Apply, List.foldl_append, HideOutput]
  have h2 : (o.Apply (xs ++ [HideOutput])).logOutput = false := by
    simp [ExecOptions.Apply, List.foldl_append, HideOutput]
  have h3 := apply_keeps_output_flags_off g ys hys hno (o.Apply (xs ++ [HideOutput])) h1 h2
  rw [← apply_append] at h3
  exact ⟨h1, h2, rfl, h3.1, h3.2, rfl⟩

theorem logError_ne_trimOutput : LogError true ≠ TrimOutput true := by
  intro h
  have h1 := congrArg (fun f => (f { defaults with logError := false }).logError) h
  exact Bool.noConfusion h1

theorem hideOutput_turns_error_logging_off_witness :
    (∀ opt ∈ [TrimOutput true], FileOption ⟨false, DefaultRedactMask⟩ opt) ∧
      LogError true ∉ [TrimOutput true] ∧
      ((defaults.Apply ([LogError true] ++ [HideOutput])).logError = false ∧
      (defaults.Apply ([LogError true] ++ [HideOutput])).logOutput = false ∧
      (Build [LogError true, HideOutput]).logError = false ∧
      (defaults.Apply ([LogError true] ++ [HideOutput] ++ [TrimOutput true])).logError = false ∧
      (defaults.Apply ([LogError true] ++ [HideOutput] ++ [TrimOutput true])).logOutput = false ∧
      (Build [HideOutput, LogError true]).logError = true) :=
  have hys : ∀ opt ∈ [TrimOutput true], FileOption ⟨false, DefaultRedactMask⟩ opt := by
    intro opt h
    rw [List.mem_singleton] at h
    subst h
    exact FileOption.trimOutput true
  have hno : LogError true ∉ [TrimOutput true] := by
    rw [List.mem_singleton]
    exact logError_ne_trimOutput
  ⟨hys, hno,
    hideOutput_turns_error_logging_off ⟨false, DefaultRedactMask⟩ defaults [LogError true]
      [TrimOutput true] hys hno⟩

/-- C16: `Build()` with no options yields command-text logging on, debug logging on,
error logging on, output logging on, input logging off, info logging off, streaming
off, trimming on, allow-stderr-without-failure off, the write-occurred flag false, no
input source, no output and error sinks, and empty redaction and decoration chains. -/
theorem build_defaults :
    (Build []).logCommand = true ∧ (Build []).logDebug = true ∧ (Build []).logError = true ∧
      (Build []).logOutput = true ∧ (Build []).logInput = false ∧
      (Build []).logInfo = false ∧ (Build []).streamOutput = false ∧
      (Build []).trimOutput = true ∧ (Build []).allowWinStderr = false ∧
      (Build []).WroteErr = false ∧ (Build []).in_ = none ∧
      (Build []).out.isNone = true ∧ (Build []).errOut.isNone = true ∧
      (Build []).redactFuncs = [] ∧ (Build []).decorateFuncs = [] :=
  ⟨rfl, rfl, rfl, rfl, rfl, rfl, rfl, rfl, rfl, rfl, rfl, rfl, rfl, rfl, rfl⟩

/-- C17: options are applied strictly in the order supplied: `Build(xs ++ ys)` is
`Build(xs)` followed by `Apply(ys)`; a scalar setter applied last wins (after any `xs`
followed by `TrimOutput(v)`, `LogInput(v)` or `LogError(v)` the flag equals `v`); a
registering option (`RedactString`, `Decorate`) appends exactly one rule at the end of
its chain and leaves the rules registered before, and their order, unchanged. -/
theorem options_apply_in_order (g : Globals) (xs ys : List ExecOption) (v : Bool)
    (L : List GoString) (d : DecorateFunc) :
    Build (xs ++ ys) = (Build xs).Apply ys ∧
      (Build (xs ++ [TrimOutput v])).trimOutput = v ∧
      (Build (xs ++ [LogInput v])).logInput = v ∧
      (Build (xs ++ [LogError v])).logError = v ∧
      (Build (xs ++ [RedactString g L])).redactFuncs
        = (Build xs).redactFuncs ++ [redactStringFunc g (L.filter (fun str => str != []))] ∧
      (Build (xs ++ [RedactString g L])).decorateFuncs = (Build xs).decorateFuncs ∧
      (Build (xs ++ [Decorate d])).decorateFuncs = (Build xs).decorateFuncs ++ [d] ∧
      (Build (xs ++ [Decorate d])).redactFuncs = (Build xs).redactFuncs := by
  have h : ∀ opt : ExecOption, Build (xs ++ [opt]) = opt (Build xs) := by
    intro opt
    simp [Build, ExecOptions.Apply, List.foldl_append]
  refine ⟨apply_append defaults xs ys, ?_, ?_, ?_, ?_, ?_, ?_, ?_⟩ <;> rw [h] <;> rfl

/-! ## Fan-out failures and log records -/

theorem multiWrite_append_fail (g : Globals) (pre post : List Writer) (w : Writer)
    (st st1 st2 : Proc) (b : GoString) (n : Nat) (r : Option GoError)
    (hfail : r ≠ none ∨ n ≠ b.length)
    (hpre : multiWrite g pre st b = (st1, b.length, none))
    (hw : w.Write g st1 b = (st2, n, r)) :
    multiWrite g (pre ++ w :: post) st b = (st2, n, some (r.getD .ErrShortWrite)) := by
  induction pre generalizing st with
  | nil =>
    simp only [multiWrite, Prod.mk.injEq] at hpre
    obtain ⟨rfl, -⟩ := hpre
    simp only [List.nil_append, multiWrite, hw]
    cases r with
    | some e => rfl
    | none =>
      have hn : n ≠ b.length := by
        rcases hfail with h | h
        · exact absurd rfl h
        · exact h
      simp [hn]
  | cons v pre ih =>
    simp only [List.cons_append, multiWrite] at hpre ⊢
    rcases hv : v.Write g st b with ⟨st', m, e⟩
    rw [hv] at hpre
    cases e with
    | some e => simp at hpre
    | none =>
      simp only at hpre ⊢
      by_cases hm : m = b.length
      · simp only [hm, ne_eq, not_true_eq_false, if_false] at hpre ⊢
        exact ih st' hpre
      · simp [hm] at hpre

theorem stdout_taps_write (g : Globals) (st : Proc) (b : GoString) :
    multiWrite g
        (if st.opts.streamOutput then [Writer.redactingWriter (.logWriter .info)]
         else if st.opts.logOutput then [Writer.redactingWriter (.logWriter .debug)]
         else []) st b
      = ({ st with log := st.log ++
            (if st.opts.streamOutput then [⟨.info, st.opts.Redact g b⟩]
             else if st.opts.logOutput then [⟨.debug, st.opts.Redact g b⟩]
             else []) }, b.length, none) := by
  by_cases hs : st.opts.streamOutput = true
  · simp [hs, multiWrite, Writer.Write, redactingWriterWrite, logWriterWrite]
  · by_cases hl : st.opts.logOutput = true
    · simp [hs, hl, multiWrite, Writer.Write, redactingWriterWrite, logWriterWrite]
    · simp [hs, hl, multiWrite]

theorem stderr_taps_write (g : Globals) (st : Proc) (b : GoString) :
    multiWrite g
        ((if st.opts.streamOutput then [Writer.redactingWriter (.logWriter .error)]
          else if st.opts.logError then [Writer.redactingWriter (.logWriter .debug)]
          else []) ++ [Writer.flaggingWriter]) st b
      = ({ st with
            log := st.log ++
              (if st.opts.streamOutput then [⟨.error, st.opts.Redact g b⟩]
               else if st.opts.logError then [⟨.debug, st.opts.Redact g b⟩]
               else []),
            opts := { st.opts with
              wroteErr := st.opts.wroteErr || decide (b.length > 0) } }, b.length, none) := by
  have hflag : ∀ st' : Proc, flaggingWriterWrite st' b
      = ({ st' with opts := { st'.opts with
            wroteErr := st'.opts.wroteErr || decide (b.length > 0) } }, b.length, none) := by
    intro st'
    cases hw : st'.opts.wroteErr <;> cases hp : decide (b.length > 0) <;>
      simp [flaggingWriterWrite, hw, hp] <;> rw [← hw]
  by_cases hs : st.opts.streamOutput = true
  · simp [hs, multiWrite, Writer.Write, redactingWriterWrite, logWriterWrite, hflag]
  · by_cases hl : st.opts.logError = true
    · simp [hs, hl, multiWrite, Writer.Write, redactingWriterWrite, logWriterWrite, hflag]
    · simp [hs, hl, multiWrite, Writer.Write, hflag]

/-- C15: when the caller-supplied sink of the `Stdout()` or `Stderr()` fan-out fails a
write of `b` with error `e`, the write to the endpoint returns that error (and the
sink's count), not success; a sink that accepts fewer than `len(b)` bytes without error
makes the write fail with `ErrShortWrite`; and in any fan-out whose earlier members
accepted `b`, the first member that fails or comes up short ends the write with that
result, the members after it being left unwritten. -/
theorem fanout_surfaces_failure (g : Globals) (st : Proc) (cw : CallerWriter) (b : GoString)
    (n : Nat) (r : Option GoError) (hfail : r ≠ none ∨ n ≠ b.length) :
    (st.opts.out = some cw → cw.reply st.outWritten b = (n, r) →
        (multiWrite g st.opts.Stdout st b).2 = (n, some (r.getD .ErrShortWrite))) ∧
      (st.opts.errOut = some cw → cw.reply st.errWritten b = (n, r) →
        (multiWrite g st.opts.Stderr st b).2 = (n, some (r.getD .ErrShortWrite))) ∧
      (∀ (pre post : List Writer) (w : Writer) (st1 st2 : Proc),
        multiWrite g pre st b = (st1, b.length, none) → w.Write g st1 b = (st2, n, r) →
        multiWrite g (pre ++ w :: post) st b = (st2, n, some (r.getD .ErrShortWrite))) := by
  refine ⟨?_, ?_, ?_⟩
  · intro hout hrep
    have h := multiWrite_append_fail g _ [] (.caller .out cw) st _ _ b n r hfail
      (stdout_taps_write g st b) (by simp only [Writer.Write, callerWrite, hrep]; rfl)
    unfold ExecOptions.Stdout
    rw [hout]
    simp only
    rw [h]
  · intro herr hrep
    have h := multiWrite_append_fail g _ [] (.caller .errOut cw) st _ _ b n r hfail
      (stderr_taps_write g st b) (by simp only [Writer.Write, callerWrite, hrep]; rfl)
    unfold ExecOptions.Stderr
    rw [herr]
    simp only
    rw [h]
  · intro pre post w st1 st2 hpre hw
    exact multiWrite_append_fail g pre post w st st1 st2 b n r hfail hpre hw

theorem fanout_surfaces_failure_witness :
    ((some (GoError.other 7) : Option GoError) ≠ none ∨ 0 ≠ (lit "out").length) ∧
      (((Proc.start (Build [Stdout ⟨fun _ _ => (0, some (.other 7))⟩])).opts.out
            = some ⟨fun _ _ => (0, some (.other 7))⟩ →
          (CallerWriter.mk (fun _ _ => (0, some (.other 7)))).reply
            (Proc.start (Build [Stdout ⟨fun _ _ => (0, some (.other 7))⟩])).outWritten (lit "out")
            = (0, some (.other 7)) →
          (multiWrite ⟨false, DefaultRedactMask⟩
            (Proc.start (Build [Stdout ⟨fun _ _ => (0, some (.other 7))⟩])).opts.Stdout
            (Proc.start (Build [Stdout ⟨fun _ _ => (0, some (.other 7))⟩])) (lit "out")).2
            = (0, some ((some (GoError.other 7)).getD .ErrShortWrite))) ∧
        ((Proc.start (Build [Stdout ⟨fun _ _ => (0, some (.other 7))⟩])).opts.errOut
            = some ⟨fun _ _ => (0, some (.other 7))⟩ →
          (CallerWriter.mk (fun _ _ => (0, some (.other 7)))).reply
            (Proc.start (Build [Stdout ⟨fun _ _ => (0, some (.other 7))⟩])).errWritten (lit "out")
            = (0, some (.other 7)) →
          (multiWrite ⟨false, DefaultRedactMask⟩
            (Proc.start (Build [Stdout ⟨fun _ _ => (0, some (.other 7))⟩])).opts.Stderr
            (Proc.start (Build [Stdout ⟨fun _ _ => (0, some (.other 7))⟩])) (lit "out")).2
            = (0, some ((some (GoError.other 7)).getD .ErrShortWrite))) ∧
        (∀ (pre post : List Writer) (w : Writer) (st1 st2 : Proc),
          multiWrite ⟨false, DefaultRedactMask⟩ pre
              (Proc.start (Build [Stdout ⟨fun _ _ => (0, some (.other 7))⟩])) (lit "out")
            = (st1, (lit "out").length, none) →
          w.Write ⟨false, DefaultRedactMask⟩ st1 (lit "out") = (st2, 0, some (.other 7)) →
          multiWrite ⟨false, DefaultRedactMask⟩ (pre ++ w :: post)
              (Proc.start (Build [Stdout ⟨fun _ _ => (0, some (.other 7))⟩])) (lit "out")
            = (st2, 0, some ((some (GoError.other 7)).getD .ErrShortWrite)))) :=
  ⟨Or.inl (by simp),
    fanout_surfaces_failure ⟨false, DefaultRedactMask⟩
      (Proc.start (Build [Stdout ⟨fun _ _ => (0, some (.other 7))⟩]))
      ⟨fun _ _ => (0, some (.other 7))⟩ (lit "out") 0 (some (.other 7)) (Or.inl (by simp))⟩

/-- C18, evaluated on the code: for `powershell -E`, where `-E` is the last token,
`decodeEncoded` indexes `parts[i+1]` out of range and aborts, and so does `LogCmd` on the
default configuration; the bounds check guards the `-EncodedCommand` alternative only,
for which `powershell -EncodedCommand` is returned unchanged. -/
theorem decodeEncoded_aborts_on_trailing_flag :
    decodeEncoded (lit "powershell -E") = none ∧
      (Build []).LogCmd ⟨false, DefaultRedactMask⟩ (lit "powershell -E") = none ∧
      decodeEncoded (lit "powershell -EncodedCommand")
        = some (lit "powershell -EncodedCommand") := by
  decide

/-- C20: one write of `b` to the `Stdout()` endpoint makes at most one logger call:
exactly one at info severity when streaming is enabled, whatever the output-logging flag
(so also after `HideOutput`), otherwise exactly one at debug severity when output logging
is enabled, otherwise none, in each case whatever the caller sink does; and with no log
tap and no caller sink the write changes nothing and returns `len(b)` and no error. -/
theorem stdout_write_log_records (g : Globals) (st : Proc) (b : GoString) :
    (multiWrite g st.opts.Stdout st b).1.log = st.log ++
        (if st.opts.streamOutput then [⟨.info, st.opts.Redact g b⟩]
         else if st.opts.logOutput then [⟨.debug, st.opts.Redact g b⟩]
         else []) ∧
      multiWrite g
          ({ st.opts with streamOutput := false, logOutput := false, out := none }).Stdout
          { st with opts :=
              { st.opts with streamOutput := false, logOutput := false, out := none } } b
        = ({ st with opts :=
              { st.opts with streamOutput := false, logOutput := false, out := none } },
            b.length, none) ∧
      (multiWrite g (Build [StreamOutput, HideOutput]).Stdout
          (Proc.start (Build [StreamOutput, HideOutput])) b).1.log
        = [⟨.info, b⟩] ∧
      (multiWrite g (Build [HideOutput]).Stdout (Proc.start (Build [HideOutput])) b)
        = (Proc.start (Build [HideOutput]), b.length, none) := by
  refine ⟨?_, rfl, ?_, rfl⟩
  · have htaps := stdout_taps_write g st b
    unfold ExecOptions.Stdout
    cases hout : st.opts.out with
    | none =>
      simp only
      rw [htaps]
    | some cw =>
      simp only
      rcases hrep : cw.reply st.outWritten b with ⟨n, r⟩
      by_cases hfail : r ≠ none ∨ n ≠ b.length
      · rw [multiWrite_append_fail g _ [] (.caller .out cw) st _ _ b n r hfail htaps
          (by simp only [Writer.Write, callerWrite, hrep]; rfl)]
      · have hr : r = none := by
          by_contra h
          exact hfail (Or.inl h)
        have hn : n = b.length := by
          by_contra h
          exact hfail (Or.inr h)
        subst hr hn
        by_cases hs : st.opts.streamOutput = true
        · simp [hs, multiWrite, Writer.Write, redactingWriterWrite, logWriterWrite,
            callerWrite, hrep]
        · by_cases hl : st.opts.logOutput = true
          · simp [hs, hl, multiWrite, Writer.Write, redactingWriterWrite, logWriterWrite,
              callerWrite, hrep]
          · simp [hs, hl, multiWrite, Writer.Write, callerWrite, hrep]
  · simp [Build, ExecOptions.Apply, StreamOutput, HideOutput, defaults, ExecOptions.Stdout,
      multiWrite, Writer.Write, redactingWriterWrite, logWriterWrite, Proc.start,
      ExecOptions.Redact]

/-! ## Expansion of encoded commands -/

theorem getD_append_cons (done : List GoString) (cur : GoString) (rest : List GoString)
    (d : GoString) : (done ++ cur :: rest).getD done.length d = cur := by
  induction done with
  | nil => rfl
  | cons x done ih => simpa using ih

theorem get?_append_succ (done : List GoString) (cur q : GoString) (rest : List GoString) :
    (done ++ cur :: q :: rest).get? (done.length + 1) = some q := by
  induction done with
  | nil => rfl
  | cons x done ih => simpa using ih

theorem get?_append_last (done : List GoString) (cur : GoString) :
    (done ++ [cur]).get? (done.length + 1) = none := by
  induction done with
  | nil => rfl
  | cons x done ih => simp [ih]

theorem set_append_succ (done : List GoString) (cur q x : GoString) (rest : List GoString) :
    (done ++ cur :: q :: rest).set (done.length + 1) x = done ++ cur :: x :: rest := by
  induction done with
  | nil => rfl
  | cons y done ih => simp [ih]

theorem decodeLoop_eq_decodeFrom (rest : List GoString) :
    ∀ (done : List GoString) (cur : GoString),
      decodeLoop (rest.length + 1) done.length (done ++ cur :: rest)
        = (decodeFrom cur rest).map (fun out => done ++ out) := by
  induction rest with
  | nil =>
    intro done cur
    have h1 := getD_append_cons done cur [] []
    have h2 := get?_append_last done cur
    simp only [List.length_nil, Nat.zero_add, decodeLoop, h1, h2, decodeFrom]
    by_cases hE : cur = lit "-E"
    · simp [hE]
    · simp [hE]
  | cons q rest ih =>
    intro done cur
    have h1 := getD_append_cons done cur (q :: rest) []
    have h2 := get?_append_succ done cur q rest
    have h3 := fun x => set_append_succ done cur q x rest
    have h5 : (done ++ [cur]).length = done.length + 1 := by simp
    have hlen : decide ((done ++ cur :: q :: rest).length > done.length + 1) = true := by
      simp
    have hcat : ∀ x : GoString, done ++ cur :: x :: rest = (done ++ [cur]) ++ x :: rest := by
      intro x
      simp
    have ih1 := ih (done ++ [cur]) (decodeToken q)
    have ih2 := ih (done ++ [cur]) q
    rw [h5, ← hcat] at ih1 ih2
    have hflag : (decide (cur = lit "-E") || (decide (cur = lit "-EncodedCommand") &&
        decide ((done ++ cur :: q :: rest).length > done.length + 1))) = isEncodedFlag cur := by
      rw [hlen, Bool.and_true]
      unfold isEncodedFlag
      rw [beq_eq_decide, beq_eq_decide]
      congr
    have hmap : ∀ x : Option (List GoString),
        Option.map (fun out => done ++ [cur] ++ out) x
          = Option.map (fun out => done ++ out) (Option.map (fun out => cur :: out) x) := by
      intro x
      cases x <;> simp
    rw [List.length_cons, decodeLoop]
    simp only [h1, h2, hflag]
    by_cases hf : isEncodedFlag cur = true
    · simp only [hf, if_true, decodeFrom]
      cases hd : base64.DecodeString q with
      | some decoded =>
        have hq : decodeToken q = strings.ReplaceAll decoded [0] [] := by
          simp [decodeToken, hd]
        simp only [h3]
        rw [← hq, ih1, hmap]
      | none =>
        have hq : decodeToken q = q := by simp [decodeToken, hd]
        simp only
        rw [hq, ih2, hmap]
    · simp only [hf, decodeFrom, Bool.false_eq_true, if_false]
      rw [ih2, hmap]

theorem flag_not_base64 (p : GoString) (h : isEncodedFlag p = true) :
    base64.DecodeString p = none := by
  simp only [isEncodedFlag, Bool.or_eq_true, beq_iff_eq] at h
  rcases h with rfl | rfl <;> decide

theorem decodeToken_of_flag (p : GoString) (h : isEncodedFlag p = true) : decodeToken p = p := by
  simp [decodeToken, flag_not_base64 p h]

/-- The token the loop finds in the place of `orig` is a flag exactly when `orig` is one,
and then it is `orig`, when no decoding yields a flag. -/
theorem current_flag (orig : GoString) (afterFlag : Bool)
    (h : afterFlag = true → decodesToFlag orig = false) :
    isEncodedFlag (if afterFlag then decodeToken orig else orig) = isEncodedFlag orig ∧
      (isEncodedFlag orig = true → (if afterFlag then decodeToken orig else orig) = orig) := by
  cases afterFlag with
  | false => exact ⟨rfl, fun _ => rfl⟩
  | true =>
    have h' := h rfl
    simp only [if_true]
    cases hf : isEncodedFlag orig with
    | true => exact ⟨by rw [decodeToken_of_flag orig hf, hf], fun _ => decodeToken_of_flag orig hf⟩
    | false =>
      refine ⟨?_, fun hc => absurd hc (by simp)⟩
      unfold decodesToFlag at h'
      unfold decodeToken
      cases hd : base64.DecodeString orig with
      | none => simpa using hf
      | some d =>
        rw [hd] at h'
        simpa using h'

theorem decodeFrom_eq_spec (rest : List GoString) :
    ∀ (orig : GoString) (afterFlag : Bool),
      (orig :: rest).getLast? ≠ some (lit "-E") →
      noFlagFromDecoding (orig :: rest) = true →
      (afterFlag = true → decodesToFlag orig = false) →
      decodeFrom (if afterFlag then decodeToken orig else orig) rest
        = some (expandTokensSpec afterFlag (orig :: rest)) := by
  induction rest with
  | nil =>
    intro orig afterFlag hlast _ hprev
    obtain ⟨hflag, hsame⟩ := current_flag orig afterFlag hprev
    have hne : (if afterFlag then decodeToken orig else orig) ≠ lit "-E" := by
      intro hc
      have hfc : isEncodedFlag (if afterFlag then decodeToken orig else orig) = true := by
        rw [hc]; decide
      rw [hflag] at hfc
      have := hsame hfc
      rw [hc] at this
      apply hlast
      rw [← this]
      rfl
    simp only [decodeFrom, hne, if_false, expandTokensSpec]
  | cons q rest ih =>
    intro orig afterFlag hlast hchain hprev
    obtain ⟨hflag, _⟩ := current_flag orig afterFlag hprev
    have hlast' : (q :: rest).getLast? ≠ some (lit "-E") := by
      intro hc
      apply hlast
      rw [List.getLast?_cons_cons]
      exact hc
    simp only [noFlagFromDecoding, Bool.and_eq_true, Bool.not_eq_true', Bool.and_eq_false_iff]
      at hchain
    have hnext : isEncodedFlag orig = true → decodesToFlag q = false := by
      intro hf
      rcases hchain.1 with h | h
      · rw [hf] at h; exact absurd h (by simp)
      · exact h
    have hrec := ih q (isEncodedFlag orig) hlast' hchain.2 hnext
    rw [decodeFrom, hflag]
    cases hf : isEncodedFlag orig with
    | true =>
      rw [hf] at hrec
      simp only [if_true] at hrec ⊢
      rw [hrec]
      simp only [Option.map_some', expandTokensSpec, hf, if_true]
    | false =>
      rw [hf] at hrec
      simp only [Bool.false_eq_true, if_false] at hrec ⊢
      rw [hrec]
      simp only [Option.map_some', expandTokensSpec, hf, Bool.false_eq_true, if_false]

namespace strings

theorem split_ne_nil (s : GoString) (sep : Byte) : Split s sep ≠ [] := by
  cases s with
  | nil => simp [Split]
  | cons c rest =>
    unfold Split
    split
    · simp
    · split <;> simp

theorem join_cons_cons (c : Byte) (p : GoString) (ps : List GoString) (sep : GoString) :
    Join ((c :: p) :: ps) sep = c :: Join (p :: ps) sep := by
  cases ps with
  | nil => rfl
  | cons x xs => rfl

/-- Splitting on a separator byte and joining with it again gives the text back. -/
theorem join_split (s : GoString) (sep : Byte) : Join (Split s sep) [sep] = s := by
  induction s with
  | nil => rfl
  | cons c rest ih =>
    unfold Split
    by_cases hc : c = sep
    · simp only [hc, if_true]
      cases hsp : Split rest sep with
      | nil => exact absurd hsp (split_ne_nil rest sep)
      | cons p ps =>
        rw [hsp] at ih
        simp only [Join, List.nil_append, List.singleton_append, ih]
    · simp only [hc, if_false]
      cases hsp : Split rest sep with
      | nil => exact absurd hsp (split_ne_nil rest sep)
      | cons p ps =>
        rw [hsp] at ih
        simp only
        rw [join_cons_cons, ih]

end strings

theorem nothingToDecode_noFlag (parts : List GoString) (h : nothingToDecode parts = true) :
    noFlagFromDecoding parts = true := by
  induction parts with
  | nil => rfl
  | cons p rest ih =>
    cases rest with
    | nil => rfl
    | cons q rest =>
      simp only [nothingToDecode, noFlagFromDecoding, Bool.and_eq_true, Bool.not_eq_true',
        Bool.and_eq_false_iff] at h ⊢
      refine ⟨?_, ih h.2⟩
      rcases h.1 with h1 | h1
      · exact Or.inl h1
      · right
        unfold decodesToFlag
        cases hd : base64.DecodeString q with
        | none => rfl
        | some d => rw [hd] at h1; simp at h1

theorem expandTokensSpec_id (rest : List GoString) :
    ∀ (orig : GoString) (afterFlag : Bool),
      nothingToDecode (orig :: rest) = true →
      (afterFlag = true → base64.DecodeString orig = none) →
      expandTokensSpec afterFlag (orig :: rest) = orig :: rest := by
  induction rest with
  | nil =>
    intro orig afterFlag _ hprev
    cases afterFlag with
    | false => rfl
    | true => simp [expandTokensSpec, decodeToken, hprev rfl]
  | cons q rest ih =>
    intro orig afterFlag h hprev
    simp only [nothingToDecode, Bool.and_eq_true, Bool.not_eq_true', Bool.and_eq_false_iff]
      at h
    have hnext : isEncodedFlag orig = true → base64.DecodeString q = none := by
      intro hf
      rcases h.1 with h1 | h1
      · rw [hf] at h1; exact absurd h1 (by simp)
      · cases hd : base64.DecodeString q with
        | none => rfl
        | some d => rw [hd] at h1; simp at h1
    have hrec := ih q (isEncodedFlag orig) h.2 hnext
    have hhead : (if afterFlag = true then decodeToken orig else orig) = orig := by
      cases afterFlag with
      | false => rfl
      | true => simp [decodeToken, hprev rfl]
    rw [expandTokensSpec, hhead, hrec]

theorem decodeEncoded_of_tokens (cmd : GoString)
    (hps : strings.Contains cmd (lit "powershell") = true)
    (hlast : (strings.Split cmd 32).getLast? ≠ some (lit "-E"))
    (hchain : noFlagFromDecoding (strings.Split cmd 32) = true) :
    decodeEncoded cmd
      = some (strings.Join (expandTokensSpec false (strings.Split cmd 32)) (lit " ")) := by
  unfold decodeEncoded
  simp only [hps, Bool.not_true, Bool.false_eq_true, if_false]
  cases hsp : strings.Split cmd 32 with
  | nil => exact absurd hsp (strings.split_ne_nil cmd 32)
  | cons cur rest =>
    rw [hsp] at hlast hchain
    have hA := decodeLoop_eq_decodeFrom rest [] cur
    have hB := decodeFrom_eq_spec rest cur false hlast hchain (fun h => absurd h (by simp))
    simp only [Bool.false_eq_true, if_false] at hB
    simp only [List.length_nil, List.nil_append] at hA
    rw [List.length_cons, hA, hB]
    rfl

/-- C19, as stated, fails: in `powershell -E LUU= aGk=` the token `aGk=` follows `LUU=`,
not a flag, and should be kept, yet `decodeEncoded` returns `powershell -E -E hi`: the
token `LUU=` decodes to `-E`, which the loop then takes for a flag. -/
theorem decodeEncoded_decodes_after_decoded_flag :
    decodeEncodedSpec (lit "powershell -E LUU= aGk=") = lit "powershell -E -E aGk=" ∧
      decodeEncoded (lit "powershell -E LUU= aGk=") = some (lit "powershell -E -E hi") ∧
      decodeEncoded (lit "powershell -E LUU= aGk=")
        ≠ some (decodeEncodedSpec (lit "powershell -E LUU= aGk=")) := by
  decide

/-- C19, amended: a command without the marker `powershell` is returned unchanged, and
splitting on single spaces and joining again is the identity; for a command with the
marker in which `-E` is not the last token and no token following a flag decodes to a
flag, the result is the command with every token that follows a `-E` or
`-EncodedCommand` token replaced, when it is valid base64, by its decoded text without
NUL bytes, and every other token kept; in particular the command is returned unchanged
when no token following a flag is valid base64. -/
theorem decodeEncoded_expands_tokens (cmd : GoString)
    (hlast : (strings.Split cmd 32).getLast? ≠ some (lit "-E"))
    (hchain : noFlagFromDecoding (strings.Split cmd 32) = true) :
    decodeEncoded cmd = some (decodeEncodedSpec cmd) ∧
      (nothingToDecode (strings.Split cmd 32) = true → decodeEncoded cmd = some cmd) ∧
      (∀ c : GoString, strings.Contains c (lit "powershell") = false →
        decodeEncoded c = some c) ∧
      (∀ c : GoString, strings.Join (strings.Split c 32) (lit " ") = c) := by
  have hjoin : ∀ c : GoString, strings.Join (strings.Split c 32) (lit " ") = c :=
    fun c => strings.join_split c 32
  have hnone : ∀ c : GoString, strings.Contains c (lit "powershell") = false →
      decodeEncoded c = some c := by
    intro c hc
    simp [decodeEncoded, hc]
  have hmain : decodeEncoded cmd = some (decodeEncodedSpec cmd) := by
    cases hps : strings.Contains cmd (lit "powershell") with
    | false => simp [hnone cmd hps, decodeEncodedSpec, hps]
    | true =>
      rw [decodeEncoded_of_tokens cmd hps hlast hchain]
      simp [decodeEncodedSpec, hps]
  refine ⟨hmain, ?_, hnone, hjoin⟩
  intro hnothing
  cases hps : strings.Contains cmd (lit "powershell") with
  | false => exact hnone cmd hps
  | true =>
    rw [decodeEncoded_of_tokens cmd hps hlast hchain]
    cases hsp : strings.Split cmd 32 with
    | nil => exact absurd hsp (strings.split_ne_nil cmd 32)
    | cons cur rest =>
      rw [hsp] at hnothing
      rw [expandTokensSpec_id rest cur false hnothing (fun h => absurd h (by simp)), ← hsp,
        hjoin]

theorem decodeEncoded_expands_tokens_witness :
    (strings.Split (lit "powershell -E ZABpAHIA -x") 32).getLast? ≠ some (lit "-E") ∧
      noFlagFromDecoding (strings.Split (lit "powershell -E ZABpAHIA -x") 32) = true ∧
      (decodeEncoded (lit "powershell -E ZABpAHIA -x")
          = some (decodeEncodedSpec (lit "powershell -E ZABpAHIA -x")) ∧
        (nothingToDecode (strings.Split (lit "powershell -E ZABpAHIA -x") 32) = true →
          decodeEncoded (lit "powershell -E ZABpAHIA -x")
            = some (lit "powershell -E ZABpAHIA -x")) ∧
        (∀ c : GoString, strings.Contains c (lit "powershell") = false →
          decodeEncoded c = some c) ∧
        (∀ c : GoString, strings.Join (strings.Split c 32) (lit " ") = c)) :=
  ⟨by decide, by decide,
    decodeEncoded_expands_tokens (lit "powershell -E ZABpAHIA -x") (by decide) (by decide)⟩

end Rig
